import Mathlib

/-!
Verification of the `bushy::splay_map` container
(src/Bushy/include/splay_map.h) against its natural-language
specification.

Shallow embedding conventions.

* The container is instantiated at `Key = T = Nat` with `Compare =
  std::less<Nat>` (`<` on `Nat`), the instantiation its own test suite
  uses (up to the value type).  An entry is a pair `(key, value)`.
* The pointer structure (`base_node` with `parent`/`left`/`right`, the
  sentinel `_root`) is represented by the inductive type `Tree`: the
  sentinel in a child slot is `Tree.nil`, and parent pointers are left
  implicit because invariant 3 of the spec (parent coherence) makes
  them derivable from the child structure.  Code that walks `parent`
  pointers is embedded by recording the descent path explicitly (the
  `Frame` contexts below), which is the same information.
* Under invariant 5 (key uniqueness) a data node is identified by its
  key, so "a pointer to a node" is embedded as the node's key, and a
  possibly-sentinel node pointer as `Option Nat` (`none` = sentinel).
* The sentinel's min/max shortcut links (`_root.left`, `_root.right`)
  are kept consistent by invariant 2, so code reading them is embedded
  as reading the leftmost/rightmost node of the tree; claims assume
  the container invariants, under which the two coincide.
* The splay-policy deciders are modelled separately (see `splayStep`);
  container operations take the boolean answers of
  `insert_policy.splay_hint()` / `find_policy.splay_hint()` as
  explicit arguments, quantifying over every policy and counter state.
* Undefined behaviour (dereferencing through a null `_proxy`,
  dereferencing the sentinel) is modelled by `Option`-valued results,
  `none` meaning the C++ has no defined result.
-/

namespace Bushy

/-- A binary tree of (key, value) entries.  `nil` is the sentinel in a
child slot; a `node l k v r` is an entry-carrying `node` of the map. -/
inductive Tree : Type where
  | nil : Tree
  | node : Tree → Nat → Nat → Tree → Tree
deriving DecidableEq, Repr

namespace Tree

/-- In-order traversal: the entry sequence of the map, in key order
when the BST invariant holds. -/
def inorder : Tree → List (Nat × Nat)
  | nil => []
  | node l k v r => inorder l ++ (k, v) :: inorder r

/-- The key sequence of the map. -/
def keys (t : Tree) : List Nat := (inorder t).map Prod.fst

/-- `_right_rotate` (splay_map.h, lines 768-805) as a local tree
rewrite: the left child is promoted over the node.  The parent-slot
fixups of the C++ are implicit in the functional representation. -/
def right_rotate : Tree → Tree
  | node (node ll lk lv lr) nk nv nr => node ll lk lv (node lr nk nv nr)
  | t => t

/-- `_left_rotate` (splay_map.h, lines 816-853): mirror image. -/
def left_rotate : Tree → Tree
  | node nl nk nv (node rl rk rv rr) => node (node nl nk nv rl) rk rv rr
  | t => t

/-- One step of the descent context: a record of the parent node the
current subtree hangs from.  `isLeftChild = true` means the current
subtree was the parent's left child; `sib` is the other child. -/
structure Frame : Type where
  isLeftChild : Bool
  k : Nat
  v : Nat
  sib : Tree
deriving DecidableEq, Repr

/-- Plug a subtree back into its descent context, reconstructing the
whole tree.  This is the identity the parent pointers encode. -/
def rebuild : Tree → List Frame → Tree
  | t, [] => t
  | t, ⟨true, k, v, sib⟩ :: rest => rebuild (node t k v sib) rest
  | t, ⟨false, k, v, sib⟩ :: rest => rebuild (node sib k v t) rest

/-- The `_splay` loop (splay_map.h, lines 856-902) on the node
`node xl xk xv xr`, with the node's ancestor chain given innermost
first.  Each case is the rotation pair the C++ performs:
zig (depth 1, single rotation at the parent), zig-zig (two rotations
at grandparent then parent, same direction), zig-zag (two rotations at
parent then grandparent, opposite directions). -/
def splayGo (xl : Tree) (xk xv : Nat) (xr : Tree) : List Frame → Tree
  | [] => node xl xk xv xr
  | [⟨true, pk, pv, ps⟩] => right_rotate (node (node xl xk xv xr) pk pv ps)
  | [⟨false, pk, pv, ps⟩] => left_rotate (node ps pk pv (node xl xk xv xr))
  | ⟨d1, pk, pv, ps⟩ :: ⟨d2, gk, gv, gs⟩ :: rest =>
    let x := node xl xk xv xr
    let stepped : Tree :=
      match d1, d2 with
      | true, true => right_rotate (right_rotate (node (node x pk pv ps) gk gv gs))
      | false, false => left_rotate (left_rotate (node gs gk gv (node ps pk pv x)))
      | false, true => right_rotate (node (left_rotate (node ps pk pv x)) gk gv gs)
      | true, false => left_rotate (node gs gk gv (right_rotate (node x pk pv ps)))
    match stepped with
    | node a _ _ b => splayGo a xk xv b rest
    | nil => nil

/-- Descend towards `k` accumulating the context, then splay the found
node to the root; if `k` is not in the tree the context rebuilds the
original tree (the C++ never calls `_splay` on an absent key). -/
def splaySearch : Tree → Nat → List Frame → Tree
  | nil, _, ctx => rebuild nil ctx
  | node l nk nv r, k, ctx =>
    if k < nk then splaySearch l k (⟨true, nk, nv, r⟩ :: ctx)
    else if nk < k then splaySearch r k (⟨false, nk, nv, l⟩ :: ctx)
    else splayGo l nk nv r ctx

/-- `_splay` on the node holding key `k` (node pointers are embedded
as keys; the descent recovers the node the pointer denotes). -/
def splayAtKey (t : Tree) (k : Nat) : Tree := splaySearch t k []

/-- `_min` (splay_map.h, lines 994-1004) run from the root of a
subtree: walk `left` links until the sentinel.  `none` when the
subtree is empty (the C++ only calls it on non-sentinel nodes). -/
def leftmostEntry : Tree → Option (Nat × Nat)
  | nil => none
  | node nil k v _ => some (k, v)
  | node (node a b c d) k v _ => leftmostEntry (node a b c d)

/-- `_max` (splay_map.h, lines 981-991): walk `right` links. -/
def rightmostEntry : Tree → Option (Nat × Nat)
  | nil => none
  | node _ k v nil => some (k, v)
  | node _ k v (node a b c d) => rightmostEntry (node a b c d)

/-- The entry list is strictly increasing in keys. -/
def EntriesSorted (l : List (Nat × Nat)) : Prop :=
  l.Pairwise (fun a b => a.1 < b.1)

instance (l : List (Nat × Nat)) : Decidable (EntriesSorted l) :=
  inferInstanceAs (Decidable (l.Pairwise _))

/-- Invariant 1 of the spec (BST order with strict comparisons and
equality `!(a<b) && !(b<a)`), stated as sortedness of the in-order
entry sequence, which is equivalent for binary trees. -/
def BST (t : Tree) : Prop := EntriesSorted (inorder t)

instance (t : Tree) : Decidable (BST t) :=
  inferInstanceAs (Decidable (EntriesSorted _))

/-- `_find` (splay_map.h, lines 1649-1678): descend by comparisons and
return the matching node, or the sentinel (`none`).  The conditional
splay of the found node is a shape change handled by the callers. -/
def findEntry : Tree → Nat → Option (Nat × Nat)
  | nil, _ => none
  | node l nk nv r, k =>
    if k < nk then findEntry l k
    else if nk < k then findEntry r k
    else some (nk, nv)

/-- `_next` on a data node (splay_map.h, lines 941-958): if the right
child is not the sentinel, the minimum of the right subtree, else the
first right parent (`_first_right_parent_of_node`, lines 1007-1022).
The parent walk is embedded by carrying the most recent left-turn
ancestor of the descent in `acc`; under parent coherence the two
coincide.  The initial `acc = none` is the sentinel the parent walk
ends at. -/
def succGo : Tree → Nat → Option (Nat × Nat) → Option (Nat × Nat)
  | nil, _, _ => none
  | node l nk nv r, j, acc =>
    if j < nk then succGo l j (some (nk, nv))
    else if nk < j then succGo r j acc
    else
      match r with
      | nil => acc
      | node a b c d => leftmostEntry (node a b c d)

/-- `_prev` on a data node (splay_map.h, lines 961-978), mirror of
`succGo` with `_first_left_parent_of_node` (lines 1025-1040). -/
def predGo : Tree → Nat → Option (Nat × Nat) → Option (Nat × Nat)
  | nil, _, _ => none
  | node l nk nv r, j, acc =>
    if j < nk then predGo l j acc
    else if nk < j then predGo r j (some (nk, nv))
    else
      match l with
      | nil => acc
      | node a b c d => rightmostEntry (node a b c d)

/-- The entry following the (first) entry with key `j` in a list. -/
def nextInList : List (Nat × Nat) → Nat → Option (Nat × Nat)
  | [], _ => none
  | e :: rest, j => if e.1 = j then rest.head? else nextInList rest j

/-- The entry preceding the (first) entry with key `j` in a list. -/
def prevInList : List (Nat × Nat) → Nat → Option (Nat × Nat)
  | [], _ => none
  | [_], _ => none
  | e :: f :: rest, j => if f.1 = j then some e else prevInList (f :: rest) j

/-- Sorted insertion of an entry into an entry list: the
entry-sequence effect any correct fresh insertion has. -/
def orderedInsert : List (Nat × Nat) → Nat → Nat → List (Nat × Nat)
  | [], k, v => [(k, v)]
  | e :: rest, k, v =>
    if k < e.1 then (k, v) :: e :: rest else e :: orderedInsert rest k v

/-- Insert `x` immediately before the entry with key `j`. -/
def insertBeforeKey : List (Nat × Nat) → Nat → (Nat × Nat) → List (Nat × Nat)
  | [], _, _ => []
  | e :: rest, j, x =>
    if e.1 = j then x :: e :: rest else e :: insertBeforeKey rest j x

/-- Insert `x` immediately after the entry with key `p`. -/
def insertAfterKey : List (Nat × Nat) → Nat → (Nat × Nat) → List (Nat × Nat)
  | [], _, _ => []
  | e :: rest, p, x =>
    if e.1 = p then e :: x :: rest else e :: insertAfterKey rest p x

/-- `_search_for_insert_hint` (splay_map.h, lines 1110-1138) followed
by the attachment step of `_insert_node_and_splay` (lines 1308-1335),
as one recursion: descend by comparisons; a fresh key is attached at
the sentinel slot the descent falls off (the C++ keeps the last node
visited as `parent` and re-derives the side by comparing keys, which
names the same slot); on a key match nothing is attached. -/
def insertAttach : Tree → Nat → Nat → Tree
  | nil, k, v => node nil k v nil
  | node l nk nv r, k, v =>
    if k < nk then node (insertAttach l k v) nk nv r
    else if nk < k then node l nk nv (insertAttach r k v)
    else node l nk nv r

/-- The `parent->left != &_root` test of the hint-insertion branch,
with the hint node named by its key (invariant 5). -/
def leftChildIsNil : Tree → Nat → Bool
  | nil, _ => true
  | node l nk _ r, j =>
    if j < nk then leftChildIsNil l j
    else if nk < j then leftChildIsNil r j
    else decide (l = nil)

/-- The `parent->left = node` write of `_insert_node_and_splay` with
`right_child = false`: attach a fresh leaf in the left slot of the
node holding key `j` (located by its key). -/
def attachLeftAt : Tree → Nat → Nat → Nat → Tree
  | nil, _, _, _ => nil
  | node l nk nv r, j, k, v =>
    if j < nk then node (attachLeftAt l j k v) nk nv r
    else if nk < j then node l nk nv (attachLeftAt r j k v)
    else node (node nil k v nil) nk nv r

/-- The `parent->right = node` write with `right_child = true`. -/
def attachRightAt : Tree → Nat → Nat → Nat → Tree
  | nil, _, _, _ => nil
  | node l nk nv r, j, k, v =>
    if j < nk then node (attachRightAt l j k v) nk nv r
    else if nk < j then node l nk nv (attachRightAt r j k v)
    else node l nk nv (node nil k v nil)

/-- `_lower_bound` (splay_map.h, lines 1682-1709): descend, keeping
the most recent node entered via a left turn as the candidate; the
candidate (not the splayed shape) is what is returned. -/
def lowerBoundGo : Tree → Nat → Option (Nat × Nat) → Option (Nat × Nat)
  | nil, _, cand => cand
  | node l nk nv r, k, cand =>
    if nk < k then lowerBoundGo r k cand
    else lowerBoundGo l k (some (nk, nv))

def lowerBound (t : Tree) (k : Nat) : Option (Nat × Nat) := lowerBoundGo t k none

/-- The write `next->parent->left/right = &_root` of `_erase`
(splay_map.h, lines 1081-1090) seen from the right subtree `R` of the
splayed node: clear the slot on which the leftmost node of `R` hangs
(if the leftmost node is `R` itself, the cleared slot is the root's
right slot, so the whole of `R` disappears from it).  The leftmost
node's own right subtree is not reattached anywhere — this mirrors
the code; see the C1 analysis. -/
def clearLeftmostSlot : Tree → Tree
  | nil => nil
  | node nil _ _ _ => nil
  | node (node a b c d) k v r => node (clearLeftmostSlot (node a b c d)) k v r

/-- `_erase` (splay_map.h, lines 1043-1105) with the node named by its
key: the successor is computed first (`_next`), the node is splayed to
the root, then unlinked.  With two children, the successor `S` (the
leftmost node of the new root's right subtree — same node as the
pre-splay `_next` result) is detached by clearing its parent slot and
then receives `node->left` and `node->right` — reading them after the
detach write, exactly as the code does. -/
def eraseNodeTree (t : Tree) (k : Nat) : Tree :=
  match splayAtKey t k with
  | nil => nil
  | node l _ _ r =>
    match l, r with
    | nil, nil => nil
    | l, nil => l
    | nil, r => r
    | l, r =>
      match leftmostEntry r with
      | some e => node l e.1 e.2 (clearLeftmostSlot r)
      | none => nil

/-- Overwrite the mapped value stored at key `k` (the assignment step
of replace-or-insert; the key is untouched). -/
def assignAtKey : Tree → Nat → Nat → Tree
  | nil, _, _ => nil
  | node l nk nv r, k, v =>
    if k < nk then node (assignAtKey l k v) nk nv r
    else if nk < k then node l nk nv (assignAtKey r k v)
    else node l nk v r

end Tree

/-- Container state: the tree hanging from `_root.parent` and the
element count `_size`.  The `_root.left`/`_root.right` min/max links
are kept consistent by invariant 2, so reads of them are embedded as
`leftmostEntry`/`rightmostEntry` of the tree. -/
structure MapState : Type where
  tree : Tree
  sz : Nat
deriving DecidableEq, Repr

/-- The container invariants of the spec as visible to this embedding:
BST order stated as strict sortedness of the entry sequence (which
also gives invariant 5, key uniqueness), and size coherence
(invariant 4).  Invariants 2 and 3 are carried by the representation
itself. -/
def Inv (s : MapState) : Prop :=
  Tree.BST s.tree ∧ s.sz = (Tree.inorder s.tree).length

instance (s : MapState) : Decidable (Inv s) :=
  inferInstanceAs (Decidable (_ ∧ _))

/-- Result of an insertion-family operation: the new container state,
the key of the data node the returned iterator points at, and the
`inserted` flag of the returned pair. -/
structure InsRes : Type where
  st : MapState
  retKey : Nat
  inserted : Bool
deriving DecidableEq, Repr

/-- `_insert_by_val` (splay_map.h, lines 1201-1247).  `splayF` and
`splayI` are the answers `find_policy.splay_hint()` and
`insert_policy.splay_hint()` would give on this call; quantifying over
them covers every policy and counter state.  The code's single
`_search_for_insert_hint` descent is split into `findEntry` plus
`insertAttach`, two traversals of the same comparison path. -/
def insertByVal (s : MapState) (splayF splayI : Bool) (k v : Nat) : InsRes :=
  if s.sz = 0 then
    ⟨⟨Tree.node Tree.nil k v Tree.nil, s.sz + 1⟩, k, true⟩
  else
    match Tree.findEntry s.tree k with
    | some e =>
      ⟨⟨(if splayF then Tree.splayAtKey s.tree k else s.tree), s.sz⟩, e.1, false⟩
    | none =>
      let t1 := Tree.insertAttach s.tree k v
      ⟨⟨(if splayI then Tree.splayAtKey t1 k else t1), s.sz + 1⟩, k, true⟩

/-- A hint iterator passed to `insert(hint, value)`: a
default-constructed iterator (null `_proxy`), this container's
`cend()` (the sentinel), or an iterator at the data node holding key
`j`. -/
inductive Hint : Type where
  | defaultIt : Hint
  | endIt : Hint
  | pos (j : Nat) : Hint
deriving DecidableEq, Repr

/-- `_insert_by_val_hint` (splay_map.h, lines 1250-1303).  Iterator
positions are `Option Nat` (`none` = the sentinel); `++hint` and
`std::prev(hint)` are `_next`/`_prev`, whose sentinel cases read the
min/max links.  A result of `none` means the C++ has no defined
outcome on that path: `std::prev` on a default-constructed iterator
calls through a null `_proxy`, and `_comp(hint_prev->first, …)`
dereferences the sentinel when `hint_prev` is past-the-end (both
unreachable for hints of this container, apart from the
default-constructed one). -/
def insertByValHint (s : MapState) (splayF splayI : Bool) (h : Hint) (k v : Nat) :
    Option InsRes :=
  if s.sz = 0 then some (insertByVal s splayF splayI k v)
  else
    match h with
    | .defaultIt => none
    | _ =>
      let pos0 : Option Nat :=
        match h with
        | .pos j => some j
        | _ => none
      let pos1 : Option Nat :=
        match pos0 with
        | some j => if j < k then (Tree.succGo s.tree j none).map Prod.fst else some j
        | none => none
      let hintPrev : Option (Nat × Nat) :=
        match pos1 with
        | none => Tree.rightmostEntry s.tree
        | some j => Tree.predGo s.tree j none
      let beginPos : Option Nat := (Tree.leftmostEntry s.tree).map Prod.fst
      let leftValid : Option Bool :=
        if pos1 = beginPos then some true
        else hintPrev.map (fun p => decide (p.1 < k))
      let rightValid : Bool :=
        match pos1 with
        | none => true
        | some j => decide (k < j)
      match leftValid with
      | none => none
      | some lv =>
        if lv && rightValid then
          match pos1 with
          | some j =>
            if Tree.leftChildIsNil s.tree j then
              some ⟨⟨(let t1 := Tree.attachLeftAt s.tree j k v
                      if splayI then Tree.splayAtKey t1 k else t1), s.sz + 1⟩, k, true⟩
            else
              match Tree.predGo s.tree j none with
              | some p =>
                some ⟨⟨(let t1 := Tree.attachRightAt s.tree p.1 k v
                        if splayI then Tree.splayAtKey t1 k else t1), s.sz + 1⟩, k, true⟩
              | none => none
          | none =>
            match Tree.rightmostEntry s.tree with
            | some p =>
              some ⟨⟨(let t1 := Tree.attachRightAt s.tree p.1 k v
                      if splayI then Tree.splayAtKey t1 k else t1), s.sz + 1⟩, k, true⟩
            | none => none
        else
          some (insertByVal s splayF splayI k v)

/-- `erase(const key_type&)` (splay_map.h, lines 619-631): `_find`
(with its conditional policy splay of the found node), then `_erase`
on it; returns the erased count. -/
def eraseKey (s : MapState) (splayF : Bool) (k : Nat) : Nat × MapState :=
  match Tree.findEntry s.tree k with
  | none => (0, s)
  | some _ =>
    let t0 := if splayF then Tree.splayAtKey s.tree k else s.tree
    (1, ⟨Tree.eraseNodeTree t0 k, s.sz - 1⟩)

/-- `at` (splay_map.h, lines 405-417): `_find`, then either the
mapped value or a thrown `std::out_of_range`, modelled as `Except`. -/
def atKey (s : MapState) (k : Nat) : Except String Nat :=
  match Tree.findEntry s.tree k with
  | some e => Except.ok e.2
  | none => Except.error "bushy::splay_map::at() - key not found!"

/-- `count` (splay_map.h, lines 637-640). -/
def countKey (s : MapState) (k : Nat) : Nat :=
  match Tree.findEntry s.tree k with
  | some _ => 1
  | none => 0

/-- `find` (splay_map.h, lines 648-656): the returned iterator's
position, `none` for the end iterator (the `_find` result `&_root`). -/
def findIter (s : MapState) (k : Nat) : Option (Nat × Nat) :=
  Tree.findEntry s.tree k

/-- Modelled from the spec: `insert_or_assign` without a usable code
counterpart — "Behaves as insert; on key collision, overwrites the
existing value (not the key) and returns `(existing, false)`."  The
code's `_insert_or_assign_hint` (splay_map.h, lines 1444-1538) does
not type-check when instantiated (see the C4 analysis), so the
intended behaviour is taken from the spec's words, following the
shape of `_insert_by_val` for the non-collision path. -/
def insert_or_assign_spec (s : MapState) (splayF splayI : Bool) (k v : Nat) : InsRes :=
  if s.sz = 0 then
    ⟨⟨Tree.node Tree.nil k v Tree.nil, s.sz + 1⟩, k, true⟩
  else
    match Tree.findEntry s.tree k with
    | some e =>
      let t1 := Tree.assignAtKey s.tree k v
      ⟨⟨(if splayF then Tree.splayAtKey t1 k else t1), s.sz⟩, e.1, false⟩
    | none =>
      let t1 := Tree.insertAttach s.tree k v
      ⟨⟨(if splayI then Tree.splayAtKey t1 k else t1), s.sz + 1⟩, k, true⟩

/-- `_next` as the iterator increment (splay_map.h, lines 941-958):
from the sentinel it returns `_root.left`, the minimum node (cyclic
wrap); from a data node, the successor walk. -/
def nextIter (s : MapState) : Option Nat → Option Nat
  | none => (Tree.leftmostEntry s.tree).map Prod.fst
  | some j => (Tree.succGo s.tree j none).map Prod.fst

/-- `_prev` as the iterator decrement (splay_map.h, lines 961-978):
from the sentinel it returns `_root.right`, the maximum node. -/
def prevIter (s : MapState) : Option Nat → Option Nat
  | none => (Tree.rightmostEntry s.tree).map Prod.fst
  | some j => (Tree.predGo s.tree j none).map Prod.fst

/-- The five splay modes (splay_map.h, lines 36-43). -/
inductive SplayMode : Type where
  | always : SplayMode
  | half : SplayMode
  | third : SplayMode
  | fourth : SplayMode
  | never : SplayMode
deriving DecidableEq, Repr

/-- One call of `impl::splay_decider<Mode>::splay_hint()`
(splay_map.h, lines 48-86) on counter state `c`: the decision and the
new counter.  `(++counter) & 1` is the parity of the incremented
counter; `!((++counter) % N)` is divisibility by `N`.  (The C++
counter is an `int`; its signed overflow after 2^31 calls is
undefined behaviour and outside the model.) -/
def splayStep : SplayMode → Nat → Bool × Nat
  | .always, c => (true, c)
  | .never, c => (false, c)
  | .half, c => (decide ((c + 1) % 2 = 1), c + 1)
  | .third, c => (decide ((c + 1) % 3 = 0), c + 1)
  | .fourth, c => (decide ((c + 1) % 4 = 0), c + 1)

/-- Counter value after `n` calls on a freshly constructed decider
(`int counter = 0`). -/
def counterAfter (m : SplayMode) : Nat → Nat
  | 0 => 0
  | n + 1 => (splayStep m (counterAfter m n)).2

/-- The decision `splay_hint()` returns on the `n`-th call (1-based)
after construction. -/
def nthDecision (m : SplayMode) (n : Nat) : Bool :=
  (splayStep m (counterAfter m (n - 1))).1

/-- The `_node` field of an `iterator_impl`: null (default
construction), the sentinel `&_root`, or a data node (named by its key
under invariant 5). -/
inductive NodeRef : Type where
  | nullNode : NodeRef
  | sentinel : NodeRef
  | entry (k : Nat) : NodeRef
deriving DecidableEq, Repr

/-- An `iterator_impl` of one container: its `_node` and whether its
`_proxy` is non-null.  The read-only and read-write cursors are the
same template instantiated at different `Value` types, so one model
covers both. -/
structure Iter : Type where
  ref : NodeRef
  hasProxy : Bool
deriving DecidableEq, Repr

/-- `iterator_impl()` (splay_map.h, line 148): both pointers null. -/
def defaultIter : Iter := ⟨.nullNode, false⟩

/-- `end()`/`cend()` (splay_map.h, lines 469-471): the sentinel. -/
def endIter : Iter := ⟨.sentinel, true⟩

/-- An iterator at the data node holding key `k`. -/
def nodeIter (k : Nat) : Iter := ⟨.entry k, true⟩

/-- `operator==` (splay_map.h, lines 198-221) between iterators of one
container: each side is first classified as end-equivalent
(`!_proxy || &_proxy->_root == _node`); mixed classes are unequal,
two end-equivalent iterators are equal, and two valid iterators
compare by node identity. -/
def iterEq (a b : Iter) : Bool :=
  let isNullLeft := !a.hasProxy || a.ref == NodeRef.sentinel
  let isNullRight := !b.hasProxy || b.ref == NodeRef.sentinel
  if isNullLeft != isNullRight then false
  else if isNullLeft && isNullRight then true
  else a.ref == b.ref

/-- Abstract layout sizes `sizeof(splay_map)` and `sizeof(node)`.  The
memory reporters are pure arithmetic in these; `unsigned long` and
`size_type` arithmetic is modelled modulo `2 ^ 64` (an LP64
platform). -/
structure MemLayout : Type where
  sizeofMap : Nat
  sizeofNode : Nat
deriving DecidableEq, Repr

def memW : Nat := 2 ^ 64

/-- `memory_consumption_empty()` (splay_map.h, line 740). -/
def memory_consumption_empty (m : MemLayout) : Nat := m.sizeofMap % memW

/-- `memory_consumption_item()` (splay_map.h, line 741). -/
def memory_consumption_item (m : MemLayout) : Nat := m.sizeofNode % memW

/-- `memory_consumption(additional_item_memory)` (splay_map.h, line
744): reads `_size` only, never the tree. -/
def memory_consumption (m : MemLayout) (s : MapState) (extra : Nat) : Nat :=
  (memory_consumption_empty m + s.sz * ((memory_consumption_item m + extra) % memW)) % memW

/-- `max_size()` (splay_map.h, line 485):
`std::numeric_limits<size_type>::max() / memory_consumption_item()`. -/
def max_size (m : MemLayout) : Nat := (memW - 1) / memory_consumption_item m

namespace Tree

theorem inorder_ne_nil {l r : Tree} {k v : Nat} :
    inorder (node l k v r) ≠ [] := by
  simp [inorder]

theorem keys_def (t : Tree) : keys t = (inorder t).map Prod.fst := rfl

theorem inorder_right_rotate (t : Tree) :
    inorder (right_rotate t) = inorder t := by
  match t with
  | nil => rfl
  | node nil nk nv nr => rfl
  | node (node ll lk lv lr) nk nv nr => simp [right_rotate, inorder]

theorem inorder_left_rotate (t : Tree) :
    inorder (left_rotate t) = inorder t := by
  match t with
  | nil => rfl
  | node nl nk nv nil => rfl
  | node nl nk nv (node rl rk rv rr) => simp [left_rotate, inorder]

theorem inorder_rebuild_congr {t u : Tree} (h : inorder t = inorder u) :
    ∀ ctx : List Frame, inorder (rebuild t ctx) = inorder (rebuild u ctx) := by
  intro ctx
  induction ctx generalizing t u with
  | nil => simpa [rebuild] using h
  | cons f rest ih =>
    match f with
    | ⟨true, k, v, sib⟩ =>
      apply ih
      simp [inorder, h]
    | ⟨false, k, v, sib⟩ =>
      apply ih
      simp [inorder, h]

theorem inorder_splayGo :
    ∀ (ctx : List Frame) (xl : Tree) (xk xv : Nat) (xr : Tree),
      inorder (splayGo xl xk xv xr ctx) = inorder (rebuild (node xl xk xv xr) ctx)
  | [], xl, xk, xv, xr => rfl
  | [⟨true, pk, pv, ps⟩], xl, xk, xv, xr => by
    simp [splayGo, rebuild, inorder_right_rotate, inorder]
  | [⟨false, pk, pv, ps⟩], xl, xk, xv, xr => by
    simp [splayGo, rebuild, inorder_left_rotate, inorder]
  | ⟨d1, pk, pv, ps⟩ :: ⟨d2, gk, gv, gs⟩ :: rest, xl, xk, xv, xr => by
    have step := inorder_splayGo rest
    cases d1 <;> cases d2 <;>
      · simp only [splayGo, right_rotate, left_rotate, rebuild]
        rw [step]
        apply inorder_rebuild_congr
        simp [inorder]

theorem inorder_splaySearch :
    ∀ (t : Tree) (k : Nat) (ctx : List Frame),
      inorder (splaySearch t k ctx) = inorder (rebuild t ctx)
  | nil, _, _ => rfl
  | node l nk nv r, k, ctx => by
    by_cases h1 : k < nk
    · rw [splaySearch, if_pos h1, inorder_splaySearch l k]
      rfl
    · by_cases h2 : nk < k
      · rw [splaySearch, if_neg h1, if_pos h2, inorder_splaySearch r k]
        rfl
      · rw [splaySearch, if_neg h1, if_neg h2, inorder_splayGo]

/-- Splaying a node preserves the entry sequence: the tree changes
shape only. -/
theorem inorder_splayAtKey (t : Tree) (k : Nat) :
    inorder (splayAtKey t k) = inorder t := by
  unfold splayAtKey
  rw [inorder_splaySearch]
  rfl

theorem leftmostEntry_eq_head (t : Tree) :
    leftmostEntry t = (inorder t).head? := by
  match t with
  | nil => rfl
  | node nil k v r => simp [leftmostEntry, inorder]
  | node (node a b c d) k v r =>
    rw [leftmostEntry, leftmostEntry_eq_head (node a b c d), inorder]
    exact (List.head?_append_of_ne_nil _ inorder_ne_nil).symm

theorem rightmostEntry_eq_getLast (t : Tree) :
    rightmostEntry t = (inorder t).getLast? := by
  match t with
  | nil => rfl
  | node l k v nil =>
    simp [rightmostEntry, inorder]
  | node l k v (node a b c d) =>
    rw [rightmostEntry, rightmostEntry_eq_getLast (node a b c d)]
    rw [show inorder (node l k v (node a b c d))
        = (inorder l ++ [(k, v)]) ++ inorder (node a b c d) by simp [inorder]]
    exact (List.getLast?_append_of_ne_nil _ inorder_ne_nil).symm

theorem bst_node {l r : Tree} {k v : Nat} :
    BST (node l k v r) ↔
      BST l ∧ BST r ∧ (∀ e ∈ inorder l, e.1 < k) ∧ (∀ e ∈ inorder r, k < e.1) := by
  unfold BST EntriesSorted
  rw [inorder, List.pairwise_append]
  constructor
  · rintro ⟨hl, hr, hx⟩
    rw [List.pairwise_cons] at hr
    refine ⟨hl, hr.2, ?_, ?_⟩
    · intro e he
      exact hx e he (k, v) (by simp)
    · intro e he
      exact hr.1 e he
  · rintro ⟨hl, hr, hlk, hkr⟩
    refine ⟨hl, ?_, ?_⟩
    · rw [List.pairwise_cons]
      exact ⟨hkr, hr⟩
    · intro a ha b hb
      rcases List.mem_cons.mp hb with rfl | hb
      · exact hlk a ha
      · exact lt_trans (hlk a ha) (hkr b hb)

theorem BST.left {l r : Tree} {k v : Nat} (h : BST (node l k v r)) : BST l :=
  (bst_node.mp h).1

theorem BST.right {l r : Tree} {k v : Nat} (h : BST (node l k v r)) : BST r :=
  (bst_node.mp h).2.1

theorem BST.left_lt {l r : Tree} {k v : Nat} (h : BST (node l k v r)) :
    ∀ e ∈ inorder l, e.1 < k :=
  (bst_node.mp h).2.2.1

theorem BST.lt_right {l r : Tree} {k v : Nat} (h : BST (node l k v r)) :
    ∀ e ∈ inorder r, k < e.1 :=
  (bst_node.mp h).2.2.2

theorem keys_nodup {t : Tree} (h : BST t) : (keys t).Nodup := by
  unfold BST EntriesSorted at h
  unfold keys List.Nodup
  rw [List.pairwise_map]
  exact h.imp (fun hab => ne_of_lt hab)

theorem findEntry_some {t : Tree} {k : Nat} {e : Nat × Nat}
    (h : findEntry t k = some e) : e ∈ inorder t ∧ e.1 = k := by
  match t with
  | nil => simp [findEntry] at h
  | node l nk nv r =>
    rw [findEntry] at h
    by_cases h1 : k < nk
    · rw [if_pos h1] at h
      have := findEntry_some h
      exact ⟨by simp [inorder, this.1], this.2⟩
    · by_cases h2 : nk < k
      · rw [if_neg h1, if_pos h2] at h
        have := findEntry_some h
        exact ⟨by simp [inorder, this.1], this.2⟩
      · rw [if_neg h1, if_neg h2] at h
        cases h
        exact ⟨by simp [inorder], Nat.le_antisymm (Nat.le_of_not_lt h1) (Nat.le_of_not_lt h2)⟩

theorem keys_node {l r : Tree} {nk nv : Nat} :
    keys (node l nk nv r) = keys l ++ nk :: keys r := by
  simp [keys, inorder]

theorem mem_keys_iff {t : Tree} {k : Nat} :
    k ∈ keys t ↔ ∃ v, (k, v) ∈ inorder t := by
  unfold keys
  constructor
  · intro h
    obtain ⟨e, he, hk⟩ := List.mem_map.mp h
    refine ⟨e.2, ?_⟩
    rw [← hk]
    simpa using he
  · rintro ⟨v, hv⟩
    exact List.mem_map.mpr ⟨(k, v), hv, rfl⟩

theorem lt_of_mem_keys_right {l r : Tree} {nk nv j : Nat}
    (h : BST (node l nk nv r)) (hj : j ∈ keys r) : nk < j := by
  obtain ⟨v, hv⟩ := mem_keys_iff.mp hj
  exact h.lt_right _ hv

theorem lt_of_mem_keys_left {l r : Tree} {nk nv j : Nat}
    (h : BST (node l nk nv r)) (hj : j ∈ keys l) : j < nk := by
  obtain ⟨v, hv⟩ := mem_keys_iff.mp hj
  exact h.left_lt _ hv

theorem findEntry_eq_none {t : Tree} (hbst : BST t) (k : Nat) :
    findEntry t k = none ↔ k ∉ keys t := by
  match t with
  | nil => simp [findEntry, keys, inorder]
  | node l nk nv r =>
    rw [findEntry, keys_node]
    by_cases h1 : k < nk
    · rw [if_pos h1, findEntry_eq_none hbst.left k]
      have hnr : k ∉ keys r := by
        intro hk
        exact absurd (lt_trans h1 (lt_of_mem_keys_right hbst hk)) (lt_irrefl k)
      constructor
      · intro hnl hk
        rcases List.mem_append.mp hk with hk | hk
        · exact hnl hk
        · rcases List.mem_cons.mp hk with rfl | hk
          · exact absurd h1 (lt_irrefl _)
          · exact hnr hk
      · intro hall hkl
        exact hall (List.mem_append.mpr (Or.inl hkl))
    · by_cases h2 : nk < k
      · rw [if_neg h1, if_pos h2, findEntry_eq_none hbst.right k]
        have hnl : k ∉ keys l := by
          intro hk
          exact absurd (lt_trans h2 (lt_of_mem_keys_left hbst hk)) (lt_irrefl nk)
        constructor
        · intro hnr hk
          rcases List.mem_append.mp hk with hk | hk
          · exact hnl hk
          · rcases List.mem_cons.mp hk with rfl | hk
            · exact absurd h2 (lt_irrefl _)
            · exact hnr hk
        · intro hall hkr
          exact hall (List.mem_append.mpr (Or.inr (List.mem_cons.mpr (Or.inr hkr))))
      · have hek : k = nk := Nat.le_antisymm (Nat.le_of_not_lt h2) (Nat.le_of_not_lt h1)
        rw [if_neg h1, if_neg h2]
        subst hek
        simp

theorem findEntry_present {t : Tree} (hbst : BST t) {k v : Nat}
    (h : (k, v) ∈ inorder t) : findEntry t k = some (k, v) := by
  match t with
  | nil => simp [inorder] at h
  | node l nk nv r =>
    rw [inorder] at h
    rw [findEntry]
    by_cases h1 : k < nk
    · rw [if_pos h1]
      apply findEntry_present hbst.left
      rcases List.mem_append.mp h with h | h
      · exact h
      · rcases List.mem_cons.mp h with heq | h
        · simp only [Prod.mk.injEq] at heq
          exact absurd (heq.1 ▸ h1) (lt_irrefl _)
        · exact absurd (hbst.lt_right _ h) (Nat.lt_asymm h1)
    · by_cases h2 : nk < k
      · rw [if_neg h1, if_pos h2]
        apply findEntry_present hbst.right
        rcases List.mem_append.mp h with h | h
        · exact absurd (hbst.left_lt _ h) (Nat.lt_asymm h2)
        · rcases List.mem_cons.mp h with heq | h
          · simp only [Prod.mk.injEq] at heq
            exact absurd (heq.1 ▸ h2) (lt_irrefl _)
          · exact h
      · have hek : k = nk := Nat.le_antisymm (Nat.le_of_not_lt h2) (Nat.le_of_not_lt h1)
        rw [if_neg h1, if_neg h2]
        subst hek
        rcases List.mem_append.mp h with h | h
        · exact absurd (hbst.left_lt _ h) (lt_irrefl _)
        · rcases List.mem_cons.mp h with heq | h
          · simp only [Prod.mk.injEq] at heq
            rw [heq.2]
          · exact absurd (hbst.lt_right _ h) (lt_irrefl _)

theorem findEntry_isSome_iff {t : Tree} (hbst : BST t) (k : Nat) :
    (findEntry t k).isSome ↔ k ∈ keys t := by
  rcases hfe : findEntry t k with _ | e
  · simpa using ((findEntry_eq_none hbst k).mp hfe)
  · have h := findEntry_some hfe
    simp only [Option.isSome_some, true_iff]
    rw [← h.2]
    exact mem_keys_iff.mpr ⟨e.2, by simpa using h.1⟩

theorem mem_of_head_eq {l : List (Nat × Nat)} {a : Nat × Nat}
    (h : l.head? = some a) : a ∈ l := by
  cases l with
  | nil => simp at h
  | cons x xs =>
    simp at h
    simp [h]

theorem mem_of_getLast_eq {l : List (Nat × Nat)} {a : Nat × Nat}
    (h : l.getLast? = some a) : a ∈ l :=
  List.mem_of_mem_getLast? (by simp [h])

theorem nextInList_mem {l : List (Nat × Nat)} {j : Nat} {e : Nat × Nat}
    (h : nextInList l j = some e) : e ∈ l := by
  match l with
  | [] => simp [nextInList] at h
  | f :: rest =>
    rw [nextInList] at h
    by_cases hf : f.1 = j
    · rw [if_pos hf] at h
      exact List.mem_cons.mpr (Or.inr (mem_of_head_eq h))
    · rw [if_neg hf] at h
      exact List.mem_cons.mpr (Or.inr (nextInList_mem h))

theorem prevInList_mem {l : List (Nat × Nat)} {j : Nat} {e : Nat × Nat}
    (h : prevInList l j = some e) : e ∈ l := by
  match l with
  | [] => simp [prevInList] at h
  | [a] => simp [prevInList] at h
  | a :: f :: rest =>
    rw [prevInList] at h
    by_cases hf : f.1 = j
    · rw [if_pos hf] at h
      cases h
      exact List.mem_cons.mpr (Or.inl rfl)
    · rw [if_neg hf] at h
      exact List.mem_cons.mpr (Or.inr (prevInList_mem h))

theorem prevInList_of_not_mem {l : List (Nat × Nat)} {j : Nat}
    (h : j ∉ l.map Prod.fst) : prevInList l j = none := by
  match l with
  | [] => rfl
  | [a] => rfl
  | a :: f :: rest =>
    rw [prevInList]
    have hf : f.1 ≠ j := by
      intro he
      exact h (by simp [he])
    rw [if_neg hf]
    exact prevInList_of_not_mem (fun hm => h (by simp at hm ⊢; tauto))

theorem nextInList_append_right {l₁ l₂ : List (Nat × Nat)} {j : Nat}
    (h : j ∉ l₁.map Prod.fst) : nextInList (l₁ ++ l₂) j = nextInList l₂ j := by
  match l₁ with
  | [] => rfl
  | e :: rest =>
    have he : e.1 ≠ j := by
      intro hej
      exact h (by simp [hej])
    rw [List.cons_append, nextInList, if_neg he]
    exact nextInList_append_right (fun hm => h (by simp at hm ⊢; tauto))

theorem nextInList_append_left {l₁ l₂ : List (Nat × Nat)} {j : Nat}
    (h : j ∈ l₁.map Prod.fst) :
    nextInList (l₁ ++ l₂) j =
      match nextInList l₁ j with
      | some e => some e
      | none => l₂.head? := by
  match l₁ with
  | [] => simp at h
  | e :: rest =>
    rw [List.cons_append, nextInList, nextInList]
    by_cases he : e.1 = j
    · rw [if_pos he, if_pos he]
      cases rest with
      | nil => simp
      | cons f rest2 => simp
    · rw [if_neg he, if_neg he]
      apply nextInList_append_left
      simp only [List.map_cons, List.mem_cons] at h
      rcases h with h | h
      · exact absurd h.symm he
      · exact h

theorem prevInList_none_iff {l : List (Nat × Nat)} {j : Nat}
    (hnd : (l.map Prod.fst).Nodup) (hj : j ∈ l.map Prod.fst) :
    prevInList l j = none ↔ l.head?.map Prod.fst = some j := by
  match l with
  | [] => simp at hj
  | [a] =>
    simp at hj
    simp [prevInList, hj]
  | a :: f :: rest =>
    have hmap : (a :: f :: rest).map Prod.fst = a.1 :: (f :: rest).map Prod.fst := rfl
    rw [hmap] at hnd
    obtain ⟨hanotin, hnd2⟩ := List.nodup_cons.mp hnd
    rw [prevInList]
    by_cases hf : f.1 = j
    · rw [if_pos hf]
      have ha : a.1 ≠ j := by
        intro haj
        apply hanotin
        rw [haj, ← hf]
        exact List.mem_cons_self _ _
      simp [ha]
    · rw [if_neg hf]
      by_cases haj : a.1 = j
      · have hnm : j ∉ (f :: rest).map Prod.fst := by
          intro hm
          apply hanotin
          rw [haj]
          exact hm
        rw [prevInList_of_not_mem hnm]
        simp [haj]
      · have hj2 : j ∈ (f :: rest).map Prod.fst := by
          rw [hmap] at hj
          rcases List.mem_cons.mp hj with h | h
          · exact absurd h.symm haj
          · exact h
        rw [prevInList_none_iff hnd2 hj2]
        simp [hf, haj]

theorem prevInList_append_left {l₁ l₂ : List (Nat × Nat)} {j : Nat}
    (h1 : j ∈ l₁.map Prod.fst) (h2 : j ∉ l₂.map Prod.fst) :
    prevInList (l₁ ++ l₂) j = prevInList l₁ j := by
  match l₁ with
  | [] => simp at h1
  | [a] =>
    rw [show prevInList [a] j = none from rfl]
    cases l₂ with
    | nil => rfl
    | cons f rest =>
      have hf : f.1 ≠ j := by
        intro he
        exact h2 (by simp [he])
      rw [List.singleton_append, prevInList, if_neg hf]
      exact prevInList_of_not_mem h2
  | a :: b :: rest =>
    rw [List.cons_append, List.cons_append, prevInList, prevInList, ← List.cons_append]
    by_cases hb : b.1 = j
    · rw [if_pos hb, if_pos hb]
    · rw [if_neg hb, if_neg hb]
      by_cases hj : j ∈ (b :: rest).map Prod.fst
      · exact prevInList_append_left hj h2
      · have hnm : j ∉ ((b :: rest) ++ l₂).map Prod.fst := by
          intro hm
          rw [List.map_append] at hm
          rcases List.mem_append.mp hm with hm | hm
          · exact hj hm
          · exact h2 hm
        rw [prevInList_of_not_mem hnm, prevInList_of_not_mem hj]

theorem prevInList_append_mid {l₁ l₂ : List (Nat × Nat)} {j : Nat} {hh : Nat × Nat}
    (h1 : j ∉ l₁.map Prod.fst) (h2 : l₂.head? = some hh) (h3 : hh.1 ≠ j) :
    prevInList (l₁ ++ l₂) j = prevInList l₂ j := by
  match l₁ with
  | [] => rfl
  | [a] =>
    cases l₂ with
    | nil => simp at h2
    | cons f rest =>
      have hf : f = hh := by simpa using h2
      subst hf
      rw [List.singleton_append, prevInList, if_neg h3]
  | a :: b :: rest =>
    have hb : b.1 ≠ j := by
      intro he
      exact h1 (by simp [he])
    rw [List.cons_append, List.cons_append, prevInList, if_neg hb, ← List.cons_append]
    exact prevInList_append_mid (fun hm => h1 (by simp at hm ⊢; tauto)) h2 h3

theorem prevInList_append_last {l₁ l₂ : List (Nat × Nat)} {j : Nat} {hh : Nat × Nat}
    (h1 : j ∉ l₁.map Prod.fst) (hne : l₁ ≠ []) (h2 : l₂.head? = some hh)
    (h3 : hh.1 = j) : prevInList (l₁ ++ l₂) j = l₁.getLast? := by
  match l₁ with
  | [] => exact absurd rfl hne
  | [a] =>
    cases l₂ with
    | nil => simp at h2
    | cons f rest =>
      have hf : f = hh := by simpa using h2
      subst hf
      rw [List.singleton_append, prevInList, if_pos h3]
      rfl
  | a :: b :: rest =>
    have hb : b.1 ≠ j := by
      intro he
      exact h1 (by simp [he])
    rw [List.cons_append, List.cons_append, prevInList, if_neg hb, ← List.cons_append,
      List.getLast?_cons_cons]
    exact prevInList_append_last (fun hm => h1 (by simp at hm ⊢; tauto)) (by simp) h2 h3

/-- `_next` computes the in-order successor: for a key present in a
BST, the walk returns the entry following it in the entry sequence,
falling back to the initial accumulator (the sentinel) after the
maximum. -/
theorem succGo_eq {t : Tree} (hbst : BST t) {j : Nat} (hj : j ∈ keys t)
    (acc : Option (Nat × Nat)) :
    succGo t j acc =
      match nextInList (inorder t) j with
      | some e => some e
      | none => acc := by
  match t with
  | nil => simp [keys, inorder] at hj
  | node l nk nv r =>
    rw [succGo.eq_def]
    by_cases h1 : j < nk
    · simp only [if_pos h1]
      have hjl : j ∈ keys l := by
        rw [keys_node] at hj
        rcases List.mem_append.mp hj with h | h
        · exact h
        · rcases List.mem_cons.mp h with rfl | h
          · exact absurd h1 (lt_irrefl _)
          · exact absurd (lt_of_mem_keys_right hbst h) (by omega)
      rw [succGo_eq hbst.left hjl, inorder, nextInList_append_left hjl]
      rcases hni : nextInList (inorder l) j with _ | e <;> simp [hni]
    · by_cases h2 : nk < j
      · simp only [if_neg h1, if_pos h2]
        have hjr : j ∈ keys r := by
          rw [keys_node] at hj
          rcases List.mem_append.mp hj with h | h
          · exact absurd (lt_of_mem_keys_left hbst h) (by omega)
          · rcases List.mem_cons.mp h with rfl | h
            · exact absurd h2 (lt_irrefl _)
            · exact h
        have hjnl : j ∉ (inorder l).map Prod.fst := by
          intro h
          exact absurd (lt_of_mem_keys_left hbst h) (by omega)
        rw [inorder, nextInList_append_right hjnl, nextInList,
          if_neg (by omega : ¬ nk = j)]
        exact succGo_eq hbst.right hjr acc
      · have hek : j = nk := by omega
        subst hek
        simp only [if_neg h1, if_neg h2]
        have hjnl : j ∉ (inorder l).map Prod.fst := by
          intro h
          exact absurd (lt_of_mem_keys_left hbst h) (by omega)
        rw [inorder, nextInList_append_right hjnl, nextInList, if_pos rfl]
        match r with
        | nil => simp [inorder]
        | node a b c d =>
          change leftmostEntry (node a b c d) = _
          rw [leftmostEntry_eq_head]
          rcases hh : (inorder (node a b c d)).head? with _ | e
          · exact absurd (List.head?_eq_none_iff.mp hh) inorder_ne_nil
          · simp [hh]

/-- `_prev` computes the in-order predecessor, symmetrically. -/
theorem predGo_eq {t : Tree} (hbst : BST t) {j : Nat} (hj : j ∈ keys t)
    (acc : Option (Nat × Nat)) :
    predGo t j acc =
      match prevInList (inorder t) j with
      | some e => some e
      | none => acc := by
  match t with
  | nil => simp [keys, inorder] at hj
  | node l nk nv r =>
    rw [predGo.eq_def]
    by_cases h1 : j < nk
    · simp only [if_pos h1]
      have hjl : j ∈ keys l := by
        rw [keys_node] at hj
        rcases List.mem_append.mp hj with h | h
        · exact h
        · rcases List.mem_cons.mp h with rfl | h
          · exact absurd h1 (lt_irrefl _)
          · exact absurd (lt_of_mem_keys_right hbst h) (by omega)
      have hjn2 : j ∉ ((nk, nv) :: inorder r).map Prod.fst := by
        intro h
        simp only [List.map_cons, List.mem_cons] at h
        rcases h with rfl | h
        · exact absurd h1 (lt_irrefl _)
        · exact absurd (lt_of_mem_keys_right hbst h) (by omega)
      rw [inorder, prevInList_append_left hjl hjn2]
      exact predGo_eq hbst.left hjl acc
    · by_cases h2 : nk < j
      · simp only [if_neg h1, if_pos h2]
        have hjr : j ∈ keys r := by
          rw [keys_node] at hj
          rcases List.mem_append.mp hj with h | h
          · exact absurd (lt_of_mem_keys_left hbst h) (by omega)
          · rcases List.mem_cons.mp h with rfl | h
            · exact absurd h2 (lt_irrefl _)
            · exact h
        have hjnl : j ∉ (inorder l).map Prod.fst := by
          intro h
          exact absurd (lt_of_mem_keys_left hbst h) (by omega)
        rw [inorder,
          prevInList_append_mid hjnl (show ((nk, nv) :: inorder r).head? = some (nk, nv) from rfl)
            (by omega : ((nk, nv) : Nat × Nat).1 ≠ j),
          predGo_eq hbst.right hjr]
        have hndr : ((inorder r).map Prod.fst).Nodup := keys_nodup hbst.right
        have hjr2 : j ∈ (inorder r).map Prod.fst := hjr
        rcases hir : inorder r with _ | ⟨f, rest⟩
        · rw [hir] at hjr2
          simp at hjr2
        · rw [hir] at hndr hjr2
          rw [prevInList]
          by_cases hfj : f.1 = j
          · rw [if_pos hfj]
            have : prevInList (f :: rest) j = none := by
              rw [prevInList_none_iff hndr hjr2]
              simp [hfj]
            rw [this]
          · rw [if_neg hfj]
            rcases hpp : prevInList (f :: rest) j with _ | p
            · have := (prevInList_none_iff hndr hjr2).mp hpp
              simp at this
              exact absurd this hfj
            · rfl
      · have hek : j = nk := by omega
        subst hek
        simp only [if_neg h1, if_neg h2]
        have hjnl : j ∉ (inorder l).map Prod.fst := by
          intro h
          exact absurd (lt_of_mem_keys_left hbst h) (by omega)
        match l with
        | nil =>
          rw [show inorder (node nil j nv r) = (j, nv) :: inorder r from by simp [inorder]]
          rcases hir : inorder r with _ | ⟨f, rest⟩
          · rfl
          · have hfj : f.1 ≠ j := by
              have : j < f.1 := hbst.lt_right f (by rw [hir]; exact List.mem_cons_self _ _)
              omega
            rw [prevInList, if_neg hfj, prevInList_of_not_mem]
            intro hm
            have hm2 : j ∈ keys r := by
              rw [keys_def, hir]
              exact hm
            exact absurd (lt_of_mem_keys_right hbst hm2) (lt_irrefl _)
        | node a b c d =>
          rw [inorder,
            prevInList_append_last hjnl inorder_ne_nil
              (show ((j, nv) :: inorder r).head? = some (j, nv) from rfl) rfl]
          change rightmostEntry (node a b c d) = _
          rw [rightmostEntry_eq_getLast]
          rcases hgl : (inorder (node a b c d)).getLast? with _ | q
          · exact absurd (List.getLast?_eq_none_iff.mp hgl) inorder_ne_nil
          · rfl

theorem entriesSorted_nodup {l : List (Nat × Nat)} (h : EntriesSorted l) :
    (l.map Prod.fst).Nodup := by
  unfold EntriesSorted at h
  unfold List.Nodup
  rw [List.pairwise_map]
  exact h.imp (fun hab => ne_of_lt hab)

theorem orderedInsert_append_left {l₁ l₂ : List (Nat × Nat)} {nk nv k v : Nat}
    (h : k < nk) :
    orderedInsert (l₁ ++ (nk, nv) :: l₂) k v = orderedInsert l₁ k v ++ (nk, nv) :: l₂ := by
  match l₁ with
  | [] => simp [orderedInsert, h]
  | e :: rest =>
    rw [List.cons_append, orderedInsert, orderedInsert]
    by_cases he : k < e.1
    · rw [if_pos he, if_pos he]
      rfl
    · rw [if_neg he, if_neg he, orderedInsert_append_left h]
      rfl

theorem orderedInsert_append_right {l₁ l₂ : List (Nat × Nat)} {k v : Nat}
    (h : ∀ e ∈ l₁, e.1 < k) :
    orderedInsert (l₁ ++ l₂) k v = l₁ ++ orderedInsert l₂ k v := by
  match l₁ with
  | [] => rfl
  | e :: rest =>
    have he : ¬ k < e.1 := by
      have := h e (List.mem_cons_self _ _)
      omega
    rw [List.cons_append, orderedInsert, if_neg he,
      orderedInsert_append_right (fun f hf => h f (List.mem_cons_of_mem _ hf))]
    rfl

theorem orderedInsert_all_lt {l : List (Nat × Nat)} {k v : Nat}
    (h : ∀ e ∈ l, e.1 < k) : orderedInsert l k v = l ++ [(k, v)] := by
  have := @orderedInsert_append_right l [] k v h
  simpa using this

theorem insertBeforeKey_append_left {l₁ l₂ : List (Nat × Nat)} {j : Nat} {x : Nat × Nat}
    (h : j ∈ l₁.map Prod.fst) :
    insertBeforeKey (l₁ ++ l₂) j x = insertBeforeKey l₁ j x ++ l₂ := by
  match l₁ with
  | [] => simp at h
  | e :: rest =>
    rw [List.cons_append, insertBeforeKey, insertBeforeKey]
    by_cases he : e.1 = j
    · rw [if_pos he, if_pos he]
      rfl
    · rw [if_neg he, if_neg he]
      have hm : j ∈ rest.map Prod.fst := by
        simp only [List.map_cons, List.mem_cons] at h
        rcases h with h | h
        · exact absurd h.symm he
        · exact h
      rw [insertBeforeKey_append_left hm]
      rfl

theorem insertBeforeKey_append_right {l₁ l₂ : List (Nat × Nat)} {j : Nat} {x : Nat × Nat}
    (h : j ∉ l₁.map Prod.fst) :
    insertBeforeKey (l₁ ++ l₂) j x = l₁ ++ insertBeforeKey l₂ j x := by
  match l₁ with
  | [] => rfl
  | e :: rest =>
    have he : e.1 ≠ j := by
      intro hej
      exact h (by simp [hej])
    rw [List.cons_append, insertBeforeKey, if_neg he,
      insertBeforeKey_append_right (fun hm => h (by simp at hm ⊢; tauto))]
    rfl

/-- If the entry before `j` (when there is one) is below `k` and
`k < j`, inserting just before `j` is sorted insertion, and `k` is
fresh. -/
theorem insertBefore_eq_orderedInsert {l : List (Nat × Nat)} {j k v : Nat}
    (hs : EntriesSorted l) (hj : j ∈ l.map Prod.fst) (hkj : k < j)
    (hpred : ∀ p, prevInList l j = some p → p.1 < k) :
    insertBeforeKey l j (k, v) = orderedInsert l k v ∧ k ∉ l.map Prod.fst := by
  match l with
  | [] => simp at hj
  | e :: rest =>
    have hs2 : EntriesSorted rest := (List.pairwise_cons.mp hs).2
    have hlt : ∀ f ∈ rest, e.1 < f.1 := (List.pairwise_cons.mp hs).1
    rw [insertBeforeKey, orderedInsert]
    by_cases hej : e.1 = j
    · rw [if_pos hej, if_pos (by omega : k < e.1)]
      refine ⟨rfl, ?_⟩
      intro hm
      simp only [List.map_cons, List.mem_cons] at hm
      rcases hm with hm | hm
      · omega
      · obtain ⟨f, hf, hfk⟩ := List.mem_map.mp hm
        have := hlt f hf
        omega
    · have hjr : j ∈ rest.map Prod.fst := by
        simp only [List.map_cons, List.mem_cons] at hj
        rcases hj with h | h
        · exact absurd h.symm hej
        · exact h
      rcases hrest : rest with _ | ⟨f, rest2⟩
      · rw [hrest] at hjr
        simp at hjr
      · rw [← hrest]
        have hek : e.1 < k := by
          by_cases hfj : f.1 = j
          · apply hpred e
            rw [hrest, prevInList, if_pos hfj]
          · have hjr2 : j ∈ (f :: rest2).map Prod.fst := hrest ▸ hjr
            rcases hpp : prevInList (f :: rest2) j with _ | p
            · have := (prevInList_none_iff (entriesSorted_nodup (hrest ▸ hs2)) hjr2).mp hpp
              simp at this
              exact absurd this hfj
            · have hpk : p.1 < k := by
                apply hpred p
                rw [hrest, prevInList, if_neg hfj, hpp]
              have hpm : p ∈ rest := hrest ▸ prevInList_mem hpp
              have := hlt p hpm
              omega
        rw [if_neg hej, if_neg (by omega : ¬ k < e.1)]
        have hpred2 : ∀ p, prevInList rest j = some p → p.1 < k := by
          intro p hp
          rcases hrest2 : rest with _ | ⟨f, rest2⟩
          · rw [hrest2] at hp
            simp [prevInList] at hp
          · by_cases hfj : f.1 = j
            · have : prevInList rest j = none := by
                rw [hrest2]
                apply (prevInList_none_iff (entriesSorted_nodup (hrest2 ▸ hs2))
                  (hrest2 ▸ hjr)).mpr
                simp [hfj]
              rw [this] at hp
              cases hp
            · apply hpred p
              rw [hrest2] at hp ⊢
              rw [prevInList, if_neg hfj, hp]
        obtain ⟨ih1, ih2⟩ := insertBefore_eq_orderedInsert hs2 hjr hkj hpred2
        refine ⟨by rw [ih1], ?_⟩
        intro hm
        simp only [List.map_cons, List.mem_cons] at hm
        rcases hm with hm | hm
        · omega
        · exact ih2 hm

/-- If the entry after `p` (when there is one) is above `k` and
`p < k`, inserting just after `p` is sorted insertion, and `k` is
fresh. -/
theorem insertAfter_eq_orderedInsert {l : List (Nat × Nat)} {p k v : Nat}
    (hs : EntriesSorted l) (hp : p ∈ l.map Prod.fst) (hpk : p < k)
    (hnext : ∀ e, nextInList l p = some e → k < e.1) :
    insertAfterKey l p (k, v) = orderedInsert l k v ∧ k ∉ l.map Prod.fst := by
  match l with
  | [] => simp at hp
  | e :: rest =>
    have hs2 : EntriesSorted rest := (List.pairwise_cons.mp hs).2
    have hlt : ∀ f ∈ rest, e.1 < f.1 := (List.pairwise_cons.mp hs).1
    rw [insertAfterKey, orderedInsert]
    by_cases hep : e.1 = p
    · rw [if_pos hep, if_neg (by omega : ¬ k < e.1)]
      rcases hrest : rest with _ | ⟨f, rest2⟩
      · exact ⟨by simp [orderedInsert], by simp; omega⟩
      · have hkf : k < f.1 := by
          apply hnext f
          rw [nextInList, if_pos hep, hrest]
          rfl
        rw [orderedInsert, if_pos hkf]
        refine ⟨rfl, ?_⟩
        intro hm
        simp only [List.map_cons, List.mem_cons] at hm
        rcases hm with hm | hm | hm
        · omega
        · omega
        · obtain ⟨g, hg, hgk⟩ := List.mem_map.mp hm
          have hs3 : List.Pairwise (fun a b : Nat × Nat => a.1 < b.1) (f :: rest2) :=
            hrest ▸ hs2
          have := (List.pairwise_cons.mp hs3).1 g hg
          omega
    · have hpr : p ∈ rest.map Prod.fst := by
        simp only [List.map_cons, List.mem_cons] at hp
        rcases hp with h | h
        · exact absurd h.symm hep
        · exact h
      have hek : e.1 < p := by
        obtain ⟨f, hf, hfk⟩ := List.mem_map.mp hpr
        have := hlt f hf
        omega
      rw [if_neg hep, if_neg (by omega : ¬ k < e.1)]
      have hnext2 : ∀ f, nextInList rest p = some f → k < f.1 := by
        intro f hf
        apply hnext f
        rw [nextInList, if_neg hep, hf]
      obtain ⟨ih1, ih2⟩ := insertAfter_eq_orderedInsert hs2 hpr hpk hnext2
      refine ⟨by rw [ih1], ?_⟩
      intro hm
      simp only [List.map_cons, List.mem_cons] at hm
      rcases hm with hm | hm
      · omega
      · exact ih2 hm

theorem inorder_insertAttach {t : Tree} (hbst : BST t) {k : Nat}
    (hk : k ∉ keys t) (v : Nat) :
    inorder (insertAttach t k v) = orderedInsert (inorder t) k v := by
  match t with
  | nil => simp [insertAttach, inorder, orderedInsert]
  | node l nk nv r =>
    have hknk : k ≠ nk := by
      intro h
      apply hk
      rw [keys_node]
      exact List.mem_append.mpr (Or.inr (List.mem_cons.mpr (Or.inl h)))
    have hkl : k ∉ keys l := by
      intro h
      exact hk (by rw [keys_node]; exact List.mem_append.mpr (Or.inl h))
    have hkr : k ∉ keys r := by
      intro h
      apply hk
      rw [keys_node]
      exact List.mem_append.mpr (Or.inr (List.mem_cons.mpr (Or.inr h)))
    rw [insertAttach]
    by_cases h1 : k < nk
    · rw [if_pos h1, inorder, inorder, inorder_insertAttach hbst.left hkl,
        orderedInsert_append_left h1]
    · have h2 : nk < k := by omega
      rw [if_neg h1, if_pos h2, inorder, inorder, inorder_insertAttach hbst.right hkr]
      have hall : ∀ e ∈ inorder l ++ [(nk, nv)], e.1 < k := by
        intro e he
        rcases List.mem_append.mp he with he | he
        · have := hbst.left_lt e he
          omega
        · simp at he
          subst he
          simpa using h2
      calc inorder l ++ (nk, nv) :: orderedInsert (inorder r) k v
          = (inorder l ++ [(nk, nv)]) ++ orderedInsert (inorder r) k v := by simp
        _ = orderedInsert ((inorder l ++ [(nk, nv)]) ++ inorder r) k v :=
            (orderedInsert_append_right hall).symm
        _ = orderedInsert (inorder l ++ (nk, nv) :: inorder r) k v := by simp

theorem inorder_attachLeftAt {t : Tree} (hbst : BST t) {j : Nat}
    (hj : j ∈ keys t) (hnil : leftChildIsNil t j = true) (k v : Nat) :
    inorder (attachLeftAt t j k v) = insertBeforeKey (inorder t) j (k, v) := by
  match t with
  | nil => simp [keys, inorder] at hj
  | node l nk nv r =>
    rw [attachLeftAt, leftChildIsNil] at *
    by_cases h1 : j < nk
    · have hjl : j ∈ keys l := by
        rw [keys_node] at hj
        rcases List.mem_append.mp hj with h | h
        · exact h
        · rcases List.mem_cons.mp h with rfl | h
          · exact absurd h1 (lt_irrefl _)
          · exact absurd (lt_of_mem_keys_right hbst h) (by omega)
      rw [if_pos h1] at hnil ⊢
      rw [inorder, inorder, inorder_attachLeftAt hbst.left hjl hnil,
        insertBeforeKey_append_left hjl]
    · by_cases h2 : nk < j
      · have hjr : j ∈ keys r := by
          rw [keys_node] at hj
          rcases List.mem_append.mp hj with h | h
          · exact absurd (lt_of_mem_keys_left hbst h) (by omega)
          · rcases List.mem_cons.mp h with rfl | h
            · exact absurd h2 (lt_irrefl _)
            · exact h
        rw [if_neg h1, if_pos h2] at hnil ⊢
        have hjnl : j ∉ (inorder l).map Prod.fst := by
          intro h
          exact absurd (lt_of_mem_keys_left hbst h) (by omega)
        rw [inorder, inorder, inorder_attachLeftAt hbst.right hjr hnil,
          insertBeforeKey_append_right hjnl, insertBeforeKey,
          if_neg (by omega : ¬ nk = j)]
      · have hej : j = nk := by omega
        subst hej
        rw [if_neg h1, if_neg h2] at hnil ⊢
        have hl : l = nil := by simpa using hnil
        subst hl
        simp [inorder, insertBeforeKey]

theorem attachRight_rightmost {t : Tree} (hbst : BST t) {q : Nat × Nat}
    (hq : (inorder t).getLast? = some q) (k v : Nat) :
    inorder (attachRightAt t q.1 k v) = inorder t ++ [(k, v)] := by
  match t with
  | nil => simp [inorder] at hq
  | node l nk nv r =>
    match r with
    | nil =>
      have hqe : q = (nk, nv) := by
        rw [show inorder (node l nk nv nil) = inorder l ++ [(nk, nv)] from by simp [inorder],
          List.getLast?_concat] at hq
        exact (Option.some.injEq _ _ ▸ hq).symm
      subst hqe
      rw [attachRightAt, if_neg (lt_irrefl _), if_neg (lt_irrefl _)]
      simp [inorder]
    | node a b c d =>
      have hgr : (inorder (node a b c d)).getLast? = some q := by
        rw [inorder, show inorder l ++ (nk, nv) :: inorder (node a b c d)
            = (inorder l ++ [(nk, nv)]) ++ inorder (node a b c d) from by simp,
          List.getLast?_append_of_ne_nil _ inorder_ne_nil] at hq
        exact hq
      have hqm : q ∈ inorder (node a b c d) := mem_of_getLast_eq hgr
      have hql : nk < q.1 := hbst.lt_right q hqm
      rw [attachRightAt, if_neg (by omega), if_pos hql, inorder, inorder,
        attachRight_rightmost hbst.right hgr]
      simp

/-- When the hint node has a non-sentinel left child, `_prev` returns
the maximum of that left subtree (whose right slot is the sentinel);
attaching the fresh node there puts it immediately before the hint
node in the entry sequence. -/
theorem attachRight_pred {t : Tree} (hbst : BST t) {j : Nat} (hj : j ∈ keys t)
    (hln : leftChildIsNil t j = false) (acc : Option (Nat × Nat)) :
    ∃ q, predGo t j acc = some q ∧ q ∈ inorder t ∧ q.1 < j ∧
      ∀ k v, inorder (attachRightAt t q.1 k v) = insertBeforeKey (inorder t) j (k, v) := by
  match t with
  | nil => simp [keys, inorder] at hj
  | node l nk nv r =>
    rw [predGo.eq_def, leftChildIsNil] at *
    by_cases h1 : j < nk
    · have hjl : j ∈ keys l := by
        rw [keys_node] at hj
        rcases List.mem_append.mp hj with h | h
        · exact h
        · rcases List.mem_cons.mp h with rfl | h
          · exact absurd h1 (lt_irrefl _)
          · exact absurd (lt_of_mem_keys_right hbst h) (by omega)
      rw [if_pos h1] at hln
      simp only [if_pos h1]
      obtain ⟨q, hq1, hq2, hq3, hq4⟩ := attachRight_pred hbst.left hjl hln acc
      refine ⟨q, hq1, by simp [inorder, hq2], hq3, ?_⟩
      intro k v
      have hqnk : q.1 < nk := hbst.left_lt q hq2
      rw [attachRightAt, if_pos hqnk, inorder, inorder, hq4 k v,
        insertBeforeKey_append_left hjl]
    · by_cases h2 : nk < j
      · have hjr : j ∈ keys r := by
          rw [keys_node] at hj
          rcases List.mem_append.mp hj with h | h
          · exact absurd (lt_of_mem_keys_left hbst h) (by omega)
          · rcases List.mem_cons.mp h with rfl | h
            · exact absurd h2 (lt_irrefl _)
            · exact h
        rw [if_neg h1, if_pos h2] at hln
        simp only [if_neg h1, if_pos h2]
        obtain ⟨q, hq1, hq2, hq3, hq4⟩ := attachRight_pred hbst.right hjr hln (some (nk, nv))
        have hqnk : nk < q.1 := hbst.lt_right q hq2
        refine ⟨q, hq1, by simp [inorder, hq2], hq3, ?_⟩
        intro k v
        have hjnl : j ∉ (inorder l).map Prod.fst := by
          intro h
          exact absurd (lt_of_mem_keys_left hbst h) (by omega)
        rw [attachRightAt, if_neg (by omega), if_pos hqnk, inorder, inorder, hq4 k v,
          insertBeforeKey_append_right hjnl, insertBeforeKey, if_neg (by omega : ¬ nk = j)]
      · have hej : j = nk := by omega
        subst hej
        rw [if_neg h1, if_neg h2] at hln
        simp only [if_neg h1, if_neg h2]
        match l with
        | nil => simp at hln
        | node a b c d =>
          rcases hgl : (inorder (node a b c d)).getLast? with _ | q
          · exact absurd (List.getLast?_eq_none_iff.mp hgl) inorder_ne_nil
          · have hqm : q ∈ inorder (node a b c d) := mem_of_getLast_eq hgl
            have hqj : q.1 < j := hbst.left_lt q hqm
            have hqt : q ∈ inorder (node (node a b c d) j nv r) := by
              rw [inorder]
              exact List.mem_append.mpr (Or.inl hqm)
            refine ⟨q, ?_, hqt, hqj, ?_⟩
            · rw [show (match node a b c d with
                  | nil => acc
                  | node a b c d => rightmostEntry (node a b c d))
                  = rightmostEntry (node a b c d) from rfl,
                rightmostEntry_eq_getLast, hgl]
            · intro k v
              have hjnl : j ∉ (inorder (node a b c d)).map Prod.fst := by
                intro h
                exact absurd (lt_of_mem_keys_left hbst h) (lt_irrefl _)
              rw [attachRightAt, if_pos hqj, inorder, inorder,
                attachRight_rightmost hbst.left hgl,
                insertBeforeKey_append_right hjnl, insertBeforeKey, if_pos rfl]
              simp

theorem lowerBoundGo_eq {t : Tree} (hbst : BST t) (k : Nat) (cand : Option (Nat × Nat)) :
    lowerBoundGo t k cand =
      match (inorder t).find? (fun e => decide (k ≤ e.1)) with
      | some e => some e
      | none => cand := by
  match t with
  | nil => rfl
  | node l nk nv r =>
    rw [lowerBoundGo]
    by_cases h1 : nk < k
    · have hl : (inorder l).find? (fun e => decide (k ≤ e.1)) = none := by
        rw [List.find?_eq_none]
        intro e he
        have := hbst.left_lt e he
        simp only [decide_eq_true_eq]
        omega
      have hc : ((nk, nv) :: inorder r).find? (fun e => decide (k ≤ e.1))
          = (inorder r).find? (fun e => decide (k ≤ e.1)) :=
        List.find?_cons_of_neg _ (by simp only [decide_eq_true_eq]; omega)
      rw [if_pos h1, lowerBoundGo_eq hbst.right k cand, inorder, List.find?_append, hl, hc,
        Option.none_or]
    · have hc : ((nk, nv) :: inorder r).find? (fun e => decide (k ≤ e.1)) = some (nk, nv) :=
        List.find?_cons_of_pos _ (by simp only [decide_eq_true_eq]; omega)
      rw [if_neg h1, lowerBoundGo_eq hbst.left k (some (nk, nv)), inorder, List.find?_append, hc]
      rcases hfl : (inorder l).find? (fun e => decide (k ≤ e.1)) with _ | e
      · rw [hfl]
        rfl
      · rw [hfl]
        rfl

theorem sorted_find_ge {l : List (Nat × Nat)} {k : Nat} {e : Nat × Nat}
    (hs : EntriesSorted l) (h : l.find? (fun e => decide (k ≤ e.1)) = some e) :
    e ∈ l ∧ k ≤ e.1 ∧ ∀ f ∈ l, k ≤ f.1 → e.1 ≤ f.1 := by
  match l with
  | [] => simp at h
  | a :: rest =>
    have hs2 : EntriesSorted rest := (List.pairwise_cons.mp hs).2
    have hlt : ∀ f ∈ rest, a.1 < f.1 := (List.pairwise_cons.mp hs).1
    by_cases hp : k ≤ a.1
    · rw [List.find?_cons_of_pos _ (by simpa using hp)] at h
      cases h
      refine ⟨List.mem_cons_self _ _, hp, ?_⟩
      intro f hf _
      rcases List.mem_cons.mp hf with rfl | hf
      · exact le_refl _
      · exact le_of_lt (hlt f hf)
    · rw [List.find?_cons_of_neg _ (by simpa using hp)] at h
      obtain ⟨ih1, ih2, ih3⟩ := sorted_find_ge hs2 h
      refine ⟨List.mem_cons_of_mem _ ih1, ih2, ?_⟩
      intro f hf hkf
      rcases List.mem_cons.mp hf with rfl | hf
      · exact absurd hkf hp
      · exact ih3 f hf hkf

end Tree

theorem counterAfter_half (n : Nat) : counterAfter .half n = n := by
  induction n with
  | zero => rfl
  | succ m ih => simp [counterAfter, splayStep, ih]

theorem counterAfter_third (n : Nat) : counterAfter .third n = n := by
  induction n with
  | zero => rfl
  | succ m ih => simp [counterAfter, splayStep, ih]

theorem counterAfter_fourth (n : Nat) : counterAfter .fourth n = n := by
  induction n with
  | zero => rfl
  | succ m ih => simp [counterAfter, splayStep, ih]

theorem nthDecision_half (n : Nat) (h : 1 ≤ n) :
    nthDecision .half n = decide (n % 2 = 1) := by
  unfold nthDecision
  rw [counterAfter_half]
  have he : n - 1 + 1 = n := by omega
  simp [splayStep, he]

theorem nthDecision_third (n : Nat) (h : 1 ≤ n) :
    nthDecision .third n = decide (n % 3 = 0) := by
  unfold nthDecision
  rw [counterAfter_third]
  have he : n - 1 + 1 = n := by omega
  simp [splayStep, he]

theorem nthDecision_fourth (n : Nat) (h : 1 ≤ n) :
    nthDecision .fourth n = decide (n % 4 = 0) := by
  unfold nthDecision
  rw [counterAfter_fourth]
  have he : n - 1 + 1 = n := by omega
  simp [splayStep, he]

/-- C5: for a freshly constructed splay-policy decider, on every call
the Always decider says splay and the Never decider does not; the
Half decider says splay exactly once in every two consecutive calls
(every second call), the Third decider exactly once in every three
consecutive calls, and the Fourth decider exactly once in every four
consecutive calls. -/
theorem C5_splay_policy_decisions (n : Nat) (h : 1 ≤ n) :
    nthDecision .always n = true ∧
    nthDecision .never n = false ∧
    (nthDecision .half n).toNat + (nthDecision .half (n + 1)).toNat = 1 ∧
    (nthDecision .third n).toNat + (nthDecision .third (n + 1)).toNat
      + (nthDecision .third (n + 2)).toNat = 1 ∧
    (nthDecision .fourth n).toNat + (nthDecision .fourth (n + 1)).toNat
      + (nthDecision .fourth (n + 2)).toNat + (nthDecision .fourth (n + 3)).toNat = 1 := by
  refine ⟨rfl, rfl, ?_, ?_, ?_⟩
  · rw [nthDecision_half n h, nthDecision_half (n + 1) (by omega)]
    rcases (by omega : n % 2 = 0 ∨ n % 2 = 1) with h2 | h2
    · have h3 : (n + 1) % 2 = 1 := by omega
      simp [h2, h3]
    · have h3 : (n + 1) % 2 = 0 := by omega
      simp [h2, h3]
  · rw [nthDecision_third n h, nthDecision_third (n + 1) (by omega),
      nthDecision_third (n + 2) (by omega)]
    rcases (by omega : n % 3 = 0 ∨ n % 3 = 1 ∨ n % 3 = 2) with h2 | h2 | h2 <;>
      · have h3 : (n + 1) % 3 = (n % 3 + 1) % 3 := by omega
        have h4 : (n + 2) % 3 = (n % 3 + 2) % 3 := by omega
        simp [h2, h3, h4]
  · rw [nthDecision_fourth n h, nthDecision_fourth (n + 1) (by omega),
      nthDecision_fourth (n + 2) (by omega), nthDecision_fourth (n + 3) (by omega)]
    rcases (by omega : n % 4 = 0 ∨ n % 4 = 1 ∨ n % 4 = 2 ∨ n % 4 = 3) with h2 | h2 | h2 | h2 <;>
      · have h3 : (n + 1) % 4 = (n % 4 + 1) % 4 := by omega
        have h4 : (n + 2) % 4 = (n % 4 + 2) % 4 := by omega
        have h5 : (n + 3) % 4 = (n % 4 + 3) % 4 := by omega
        simp [h2, h3, h4, h5]

theorem C5_splay_policy_decisions_witness :
    1 ≤ 1 ∧
    (nthDecision .always 1 = true ∧
     nthDecision .never 1 = false ∧
     (nthDecision .half 1).toNat + (nthDecision .half 2).toNat = 1 ∧
     (nthDecision .third 1).toNat + (nthDecision .third 2).toNat
       + (nthDecision .third 3).toNat = 1 ∧
     (nthDecision .fourth 1).toNat + (nthDecision .fourth 2).toNat
       + (nthDecision .fourth 3).toNat + (nthDecision .fourth 4).toNat = 1) :=
  ⟨by decide, C5_splay_policy_decisions 1 (by decide)⟩

/-- C9: a default-constructed cursor compares equal to the
container's end cursor (in both argument orders, and to itself);
two cursors at data nodes compare equal exactly when they reference
the same node; and a cursor at a data node never compares equal to an
end-equivalent cursor.  The read-only and read-write cursors are one
template, so this covers both. -/
theorem C9_iterator_equality :
    iterEq defaultIter endIter = true ∧
    iterEq endIter defaultIter = true ∧
    iterEq defaultIter defaultIter = true ∧
    (∀ k j : Nat, iterEq (nodeIter k) (nodeIter j) = decide (k = j)) ∧
    (∀ k : Nat, iterEq (nodeIter k) endIter = false ∧ iterEq endIter (nodeIter k) = false ∧
      iterEq (nodeIter k) defaultIter = false ∧ iterEq defaultIter (nodeIter k) = false) := by
  refine ⟨rfl, rfl, rfl, ?_, ?_⟩
  · intro k j
    by_cases hkj : k = j
    · subst hkj
      simp [iterEq, nodeIter]
    · simp [iterEq, nodeIter, hkj]
  · intro k
    exact ⟨rfl, rfl, rfl, rfl⟩

/-- C10: the memory reporters are exact arithmetic in `sizeof` values
and the element count: `memory_consumption_empty()` is the map object
size, `memory_consumption_item()` the node size,
`memory_consumption(e)` equals
`memory_consumption_empty() + size() * (memory_consumption_item() + e)`
in `unsigned long` arithmetic, `max_size()` is the maximum
`size_type` value divided by the item size, and none of them depends
on the tree: two states of equal size report identically. -/
theorem C10_memory_reporters (m : MemLayout) (s t : MapState) (e : Nat)
    (hst : s.sz = t.sz) :
    memory_consumption_empty m = m.sizeofMap % memW ∧
    memory_consumption_item m = m.sizeofNode % memW ∧
    memory_consumption m s e
      = (memory_consumption_empty m + s.sz * (memory_consumption_item m + e)) % memW ∧
    max_size m = (memW - 1) / memory_consumption_item m ∧
    memory_consumption m s e = memory_consumption m t e := by
  refine ⟨rfl, rfl, ?_, rfl, ?_⟩
  · unfold memory_consumption
    have key : (s.sz * ((memory_consumption_item m + e) % memW)) % memW
        = (s.sz * (memory_consumption_item m + e)) % memW := by
      conv_lhs => rw [Nat.mul_mod, Nat.mod_mod_of_dvd _ (dvd_refl _), ← Nat.mul_mod]
    rw [Nat.add_mod, key, ← Nat.add_mod]
  · unfold memory_consumption
    rw [hst]

theorem C10_memory_reporters_witness :
    (MapState.mk Tree.nil 3).sz = (MapState.mk (Tree.node Tree.nil 1 2 Tree.nil) 3).sz ∧
    (memory_consumption_empty ⟨96, 48⟩ = 96 % memW ∧
     memory_consumption_item ⟨96, 48⟩ = 48 % memW ∧
     memory_consumption ⟨96, 48⟩ (MapState.mk Tree.nil 3) 8
       = (memory_consumption_empty ⟨96, 48⟩
          + (MapState.mk Tree.nil 3).sz * (memory_consumption_item ⟨96, 48⟩ + 8)) % memW ∧
     max_size ⟨96, 48⟩ = (memW - 1) / memory_consumption_item ⟨96, 48⟩ ∧
     memory_consumption ⟨96, 48⟩ (MapState.mk Tree.nil 3) 8
       = memory_consumption ⟨96, 48⟩ (MapState.mk (Tree.node Tree.nil 1 2 Tree.nil) 3) 8) :=
  ⟨rfl, C10_memory_reporters ⟨96, 48⟩ (MapState.mk Tree.nil 3)
    (MapState.mk (Tree.node Tree.nil 1 2 Tree.nil) 3) 8 rfl⟩

namespace Tree

theorem sorted_head_min {l : List (Nat × Nat)} (hs : EntriesSorted l) {a : Nat × Nat}
    (h : l.head? = some a) : ∀ f ∈ l, a.1 ≤ f.1 := by
  match l with
  | [] => simp at h
  | e :: rest =>
    have hea : e = a := by simpa using h
    subst hea
    intro f hf
    rcases List.mem_cons.mp hf with rfl | hf
    · exact le_refl _
    · exact le_of_lt ((List.pairwise_cons.mp hs).1 f hf)

theorem sorted_getLast_max {l : List (Nat × Nat)} (hs : EntriesSorted l) {a : Nat × Nat}
    (h : l.getLast? = some a) : ∀ f ∈ l, f.1 ≤ a.1 := by
  match l with
  | [] => simp at h
  | [e] =>
    have hea : e = a := by simpa using h
    subst hea
    intro f hf
    rcases List.mem_cons.mp hf with rfl | hf
    · exact le_refl _
    · simp at hf
  | e :: g :: rest =>
    rw [List.getLast?_cons_cons] at h
    have ih := sorted_getLast_max (List.pairwise_cons.mp hs).2 h
    intro f hf
    rcases List.mem_cons.mp hf with rfl | hf
    · have ham : a ∈ g :: rest := mem_of_getLast_eq h
      exact le_of_lt (lt_of_lt_of_le ((List.pairwise_cons.mp hs).1 a ham) (le_refl _))
    · exact ih f hf

end Tree

/-- C8: `at(k)` raises the missing-key failure (the thrown
`std::out_of_range`, modelled as `Except.error`) exactly when `k` is
absent, and otherwise returns the mapped value stored at `k`.  The
other lookups signal "not found" without a failure: `find` returns
the end iterator exactly when `k` is absent, and `count` returns 1
when `k` is present and 0 otherwise (both are total functions of the
state). -/
theorem C8_at_find_count (s : MapState) (k : Nat) (hInv : Inv s) :
    (atKey s k = Except.error "bushy::splay_map::at() - key not found!"
      ↔ k ∉ Tree.keys s.tree) ∧
    (∀ v, atKey s k = Except.ok v → (k, v) ∈ Tree.inorder s.tree) ∧
    ((∃ v, atKey s k = Except.ok v) ↔ k ∈ Tree.keys s.tree) ∧
    (findIter s k = none ↔ k ∉ Tree.keys s.tree) ∧
    countKey s k = (if k ∈ Tree.keys s.tree then 1 else 0) := by
  obtain ⟨hbst, hsz⟩ := hInv
  rcases hfe : Tree.findEntry s.tree k with _ | e
  · have hk := (Tree.findEntry_eq_none hbst k).mp hfe
    refine ⟨?_, ?_, ?_, ?_, ?_⟩ <;> simp [atKey, findIter, countKey, hfe, hk]
  · obtain ⟨hmem, hek⟩ := Tree.findEntry_some hfe
    have hkm : k ∈ Tree.keys s.tree := by
      rw [← hek]
      exact Tree.mem_keys_iff.mpr ⟨e.2, by simpa using hmem⟩
    refine ⟨by simp [atKey, hfe, hkm], ?_, ?_, by simp [findIter, hfe, hkm],
      by simp [countKey, hfe, hkm]⟩
    · intro v hv
      simp [atKey, hfe] at hv
      subst hv
      rw [← hek]
      simpa using hmem
    · constructor
      · intro _
        exact hkm
      · intro _
        exact ⟨e.2, by simp [atKey, hfe]⟩

theorem C8_at_find_count_witness :
    Inv ⟨Tree.node Tree.nil 1 10 Tree.nil, 1⟩ ∧
    ((atKey ⟨Tree.node Tree.nil 1 10 Tree.nil, 1⟩ 1
        = Except.error "bushy::splay_map::at() - key not found!"
      ↔ 1 ∉ Tree.keys (Tree.node Tree.nil 1 10 Tree.nil)) ∧
     (∀ v, atKey ⟨Tree.node Tree.nil 1 10 Tree.nil, 1⟩ 1 = Except.ok v
        → (1, v) ∈ Tree.inorder (Tree.node Tree.nil 1 10 Tree.nil)) ∧
     ((∃ v, atKey ⟨Tree.node Tree.nil 1 10 Tree.nil, 1⟩ 1 = Except.ok v)
        ↔ 1 ∈ Tree.keys (Tree.node Tree.nil 1 10 Tree.nil)) ∧
     (findIter ⟨Tree.node Tree.nil 1 10 Tree.nil, 1⟩ 1 = none
        ↔ 1 ∉ Tree.keys (Tree.node Tree.nil 1 10 Tree.nil)) ∧
     countKey ⟨Tree.node Tree.nil 1 10 Tree.nil, 1⟩ 1
        = (if 1 ∈ Tree.keys (Tree.node Tree.nil 1 10 Tree.nil) then 1 else 0)) :=
  ⟨by decide, C8_at_find_count ⟨Tree.node Tree.nil 1 10 Tree.nil, 1⟩ 1 (by decide)⟩

/-- C6: `lower_bound(k)` returns the entry with the least key not
below `k` — a member entry whose key is at least `k` and is minimal
among all such keys — and returns the end iterator (the sentinel)
when no key is greater than or equal to `k`, in particular on the
empty map. -/
theorem C6_lower_bound (s : MapState) (k : Nat) (hInv : Inv s) :
    (∀ e, Tree.lowerBound s.tree k = some e →
      e ∈ Tree.inorder s.tree ∧ k ≤ e.1 ∧ ∀ j ∈ Tree.keys s.tree, k ≤ j → e.1 ≤ j) ∧
    (Tree.lowerBound s.tree k = none → ∀ j ∈ Tree.keys s.tree, j < k) ∧
    (s.tree = Tree.nil → Tree.lowerBound s.tree k = none) := by
  obtain ⟨hbst, hsz⟩ := hInv
  have heq := Tree.lowerBoundGo_eq hbst k none
  refine ⟨?_, ?_, ?_⟩
  · intro e he
    unfold Tree.lowerBound at he
    rw [heq] at he
    rcases hf : (Tree.inorder s.tree).find? (fun e => decide (k ≤ e.1)) with _ | f
    · rw [hf] at he
      cases he
    · rw [hf] at he
      injection he with he2
      subst he2
      obtain ⟨h1, h2, h3⟩ := Tree.sorted_find_ge hbst hf
      refine ⟨h1, h2, ?_⟩
      intro j hj hkj
      obtain ⟨v, hv⟩ := Tree.mem_keys_iff.mp hj
      exact h3 (j, v) hv hkj
  · intro hnone j hj
    unfold Tree.lowerBound at hnone
    rw [heq] at hnone
    rcases hf : (Tree.inorder s.tree).find? (fun e => decide (k ≤ e.1)) with _ | f
    · have hall := List.find?_eq_none.mp hf
      obtain ⟨v, hv⟩ := Tree.mem_keys_iff.mp hj
      have := hall (j, v) hv
      simp at this
      omega
    · rw [hf] at hnone
      cases hnone
  · intro hnil
    rw [hnil]
    rfl

theorem C6_lower_bound_witness :
    Inv ⟨Tree.node (Tree.node Tree.nil 1 10 Tree.nil) 3 30 Tree.nil, 2⟩ ∧
    ((∀ e, Tree.lowerBound (Tree.node (Tree.node Tree.nil 1 10 Tree.nil) 3 30 Tree.nil) 2
        = some e →
      e ∈ Tree.inorder (Tree.node (Tree.node Tree.nil 1 10 Tree.nil) 3 30 Tree.nil) ∧
      2 ≤ e.1 ∧
      ∀ j ∈ Tree.keys (Tree.node (Tree.node Tree.nil 1 10 Tree.nil) 3 30 Tree.nil),
        2 ≤ j → e.1 ≤ j) ∧
     (Tree.lowerBound (Tree.node (Tree.node Tree.nil 1 10 Tree.nil) 3 30 Tree.nil) 2 = none →
      ∀ j ∈ Tree.keys (Tree.node (Tree.node Tree.nil 1 10 Tree.nil) 3 30 Tree.nil), j < 2) ∧
     (Tree.node (Tree.node Tree.nil 1 10 Tree.nil) 3 30 Tree.nil = Tree.nil →
      Tree.lowerBound (Tree.node (Tree.node Tree.nil 1 10 Tree.nil) 3 30 Tree.nil) 2 = none)) :=
  ⟨by decide,
   C6_lower_bound ⟨Tree.node (Tree.node Tree.nil 1 10 Tree.nil) 3 30 Tree.nil, 2⟩ 2 (by decide)⟩

/-- C7: on a non-empty map, `_next` from the sentinel (incrementing
`end()`) yields the node `begin()` points at — the minimum-keyed
node — and `_prev` from the sentinel (decrementing `end()`) yields
the maximum-keyed node, so an end iterator stepped back reaches the
last element. -/
theorem C7_end_iterator_wrap (s : MapState) (hInv : Inv s) (hne : s.tree ≠ Tree.nil) :
    ∃ mn mx : Nat × Nat,
      Tree.leftmostEntry s.tree = some mn ∧
      Tree.rightmostEntry s.tree = some mx ∧
      nextIter s none = some mn.1 ∧
      prevIter s none = some mx.1 ∧
      mn ∈ Tree.inorder s.tree ∧ mx ∈ Tree.inorder s.tree ∧
      (∀ f ∈ Tree.inorder s.tree, mn.1 ≤ f.1 ∧ f.1 ≤ mx.1) := by
  obtain ⟨hbst, hsz⟩ := hInv
  have hne2 : Tree.inorder s.tree ≠ [] := by
    rcases ht : s.tree with _ | ⟨l, k, v, r⟩
    · exact absurd ht hne
    · exact Tree.inorder_ne_nil
  rcases hh : (Tree.inorder s.tree).head? with _ | mn
  · exact absurd (List.head?_eq_none_iff.mp hh) hne2
  rcases hg : (Tree.inorder s.tree).getLast? with _ | mx
  · exact absurd (List.getLast?_eq_none_iff.mp hg) hne2
  refine ⟨mn, mx, ?_, ?_, ?_, ?_, Tree.mem_of_head_eq hh, Tree.mem_of_getLast_eq hg, ?_⟩
  · rw [Tree.leftmostEntry_eq_head, hh]
  · rw [Tree.rightmostEntry_eq_getLast, hg]
  · show (Tree.leftmostEntry s.tree).map Prod.fst = some mn.1
    rw [Tree.leftmostEntry_eq_head, hh]
    rfl
  · show (Tree.rightmostEntry s.tree).map Prod.fst = some mx.1
    rw [Tree.rightmostEntry_eq_getLast, hg]
    rfl
  · intro f hf
    exact ⟨Tree.sorted_head_min hbst hh f hf, Tree.sorted_getLast_max hbst hg f hf⟩

theorem C7_end_iterator_wrap_witness :
    Inv ⟨Tree.node (Tree.node Tree.nil 1 10 Tree.nil) 2 20 (Tree.node Tree.nil 3 30 Tree.nil), 3⟩ ∧
    (Tree.node (Tree.node Tree.nil 1 10 Tree.nil) 2 20 (Tree.node Tree.nil 3 30 Tree.nil)
      ≠ Tree.nil) ∧
    (∃ mn mx : Nat × Nat,
      Tree.leftmostEntry
        (Tree.node (Tree.node Tree.nil 1 10 Tree.nil) 2 20 (Tree.node Tree.nil 3 30 Tree.nil))
        = some mn ∧
      Tree.rightmostEntry
        (Tree.node (Tree.node Tree.nil 1 10 Tree.nil) 2 20 (Tree.node Tree.nil 3 30 Tree.nil))
        = some mx ∧
      nextIter ⟨Tree.node (Tree.node Tree.nil 1 10 Tree.nil) 2 20
        (Tree.node Tree.nil 3 30 Tree.nil), 3⟩ none = some mn.1 ∧
      prevIter ⟨Tree.node (Tree.node Tree.nil 1 10 Tree.nil) 2 20
        (Tree.node Tree.nil 3 30 Tree.nil), 3⟩ none = some mx.1 ∧
      mn ∈ Tree.inorder
        (Tree.node (Tree.node Tree.nil 1 10 Tree.nil) 2 20 (Tree.node Tree.nil 3 30 Tree.nil)) ∧
      mx ∈ Tree.inorder
        (Tree.node (Tree.node Tree.nil 1 10 Tree.nil) 2 20 (Tree.node Tree.nil 3 30 Tree.nil)) ∧
      (∀ f ∈ Tree.inorder
        (Tree.node (Tree.node Tree.nil 1 10 Tree.nil) 2 20 (Tree.node Tree.nil 3 30 Tree.nil)),
        mn.1 ≤ f.1 ∧ f.1 ≤ mx.1)) :=
  ⟨by decide, by decide,
   C7_end_iterator_wrap ⟨Tree.node (Tree.node Tree.nil 1 10 Tree.nil) 2 20
     (Tree.node Tree.nil 3 30 Tree.nil), 3⟩ (by decide) (by decide)⟩

/-- C3: inserting a pair whose key `k` is already present (a key
comparing neither below nor above the stored one) returns the
existing node's iterator with the `inserted` flag false, and leaves
the entry sequence — hence the key set and the value stored at `k` —
and the size unchanged, for every find/insert policy decision. -/
theorem C3_insert_existing (s : MapState) (k v vk : Nat) (splayF splayI : Bool)
    (hInv : Inv s) (hmem : (k, vk) ∈ Tree.inorder s.tree) :
    (insertByVal s splayF splayI k v).inserted = false ∧
    (insertByVal s splayF splayI k v).retKey = k ∧
    Tree.inorder (insertByVal s splayF splayI k v).st.tree = Tree.inorder s.tree ∧
    (insertByVal s splayF splayI k v).st.sz = s.sz := by
  obtain ⟨hbst, hsz⟩ := hInv
  have hz : ¬ s.sz = 0 := by
    rw [hsz]
    intro h0
    rw [List.length_eq_zero] at h0
    rw [h0] at hmem
    simp at hmem
  have hfe : Tree.findEntry s.tree k = some (k, vk) := Tree.findEntry_present hbst hmem
  unfold insertByVal
  rw [if_neg hz, hfe]
  refine ⟨rfl, rfl, ?_, rfl⟩
  by_cases hsp : splayF
  · simp [hsp, Tree.inorder_splayAtKey]
  · simp [hsp]

theorem C3_insert_existing_witness :
    Inv ⟨Tree.node Tree.nil 1 10 Tree.nil, 1⟩ ∧
    (1, 10) ∈ Tree.inorder (Tree.node Tree.nil 1 10 Tree.nil) ∧
    ((insertByVal ⟨Tree.node Tree.nil 1 10 Tree.nil, 1⟩ true true 1 99).inserted = false ∧
     (insertByVal ⟨Tree.node Tree.nil 1 10 Tree.nil, 1⟩ true true 1 99).retKey = 1 ∧
     Tree.inorder (insertByVal ⟨Tree.node Tree.nil 1 10 Tree.nil, 1⟩ true true 1 99).st.tree
       = Tree.inorder (Tree.node Tree.nil 1 10 Tree.nil) ∧
     (insertByVal ⟨Tree.node Tree.nil 1 10 Tree.nil, 1⟩ true true 1 99).st.sz = 1) :=
  ⟨by decide, by decide,
   C3_insert_existing ⟨Tree.node Tree.nil 1 10 Tree.nil, 1⟩ 1 99 10 true true
     (by decide) (by decide)⟩

/-- C1 (code bug): on the map {1↦10, 2↦20, 3↦30, 4↦40} with tree
shape 2(1, 3(·, 4)) — a state satisfying all container invariants,
and reachable from the empty map by inserting 2, 1, 3, 4 with the
Never policy (first conjunct) — `erase(2)` returns 1 and decrements
`_size` to 3, but the resulting tree holds only {1↦10, 3↦30}: the
entry 4↦40 vanishes, because `next->right = node->right;` runs after
`next->parent->right = &_root;` has already cleared `node->right`
(they alias when the successor is the root's right child), so the
successor's right subtree is dropped.  The claims "every other key
still maps to its previous value" and size coherence both fail. -/
theorem C1_erase_loses_successor_right_subtree :
    (insertByVal (insertByVal (insertByVal
        (insertByVal ⟨Tree.nil, 0⟩ false false 2 20).st
        false false 1 10).st false false 3 30).st false false 4 40).st
      = ⟨Tree.node (Tree.node Tree.nil 1 10 Tree.nil) 2 20
          (Tree.node Tree.nil 3 30 (Tree.node Tree.nil 4 40 Tree.nil)), 4⟩ ∧
    Inv ⟨Tree.node (Tree.node Tree.nil 1 10 Tree.nil) 2 20
          (Tree.node Tree.nil 3 30 (Tree.node Tree.nil 4 40 Tree.nil)), 4⟩ ∧
    eraseKey ⟨Tree.node (Tree.node Tree.nil 1 10 Tree.nil) 2 20
          (Tree.node Tree.nil 3 30 (Tree.node Tree.nil 4 40 Tree.nil)), 4⟩ false 2
      = (1, ⟨Tree.node (Tree.node Tree.nil 1 10 Tree.nil) 3 30 Tree.nil, 3⟩) ∧
    Tree.inorder (eraseKey ⟨Tree.node (Tree.node Tree.nil 1 10 Tree.nil) 2 20
          (Tree.node Tree.nil 3 30 (Tree.node Tree.nil 4 40 Tree.nil)), 4⟩ false 2).2.tree
      = [(1, 10), (3, 30)] ∧
    4 ∈ Tree.keys (Tree.node (Tree.node Tree.nil 1 10 Tree.nil) 2 20
          (Tree.node Tree.nil 3 30 (Tree.node Tree.nil 4 40 Tree.nil))) ∧
    4 ∉ Tree.keys (eraseKey ⟨Tree.node (Tree.node Tree.nil 1 10 Tree.nil) 2 20
          (Tree.node Tree.nil 3 30 (Tree.node Tree.nil 4 40 Tree.nil)), 4⟩ false 2).2.tree ∧
    (eraseKey ⟨Tree.node (Tree.node Tree.nil 1 10 Tree.nil) 2 20
          (Tree.node Tree.nil 3 30 (Tree.node Tree.nil 4 40 Tree.nil)), 4⟩ false 2).2.sz = 3 := by
  decide

/-- C2 (counterexample): on the non-empty map {1↦10}, hinted
insertion of (2, 20) with a default-constructed iterator as hint has
no defined result — `std::prev(hint)` calls `operator--` through the
iterator's null `_proxy` pointer — whereas unhinted insertion of the
same pair yields the two-entry map, so hinted insertion does not
produce the same container state for that hint. -/
theorem C2_default_hint_counterexample :
    Inv ⟨Tree.node Tree.nil 1 10 Tree.nil, 1⟩ ∧
    insertByValHint ⟨Tree.node Tree.nil 1 10 Tree.nil, 1⟩ false false Hint.defaultIt 2 20
      = none ∧
    (insertByVal ⟨Tree.node Tree.nil 1 10 Tree.nil, 1⟩ false false 2 20).st
      = ⟨Tree.node Tree.nil 1 10 (Tree.node Tree.nil 2 20 Tree.nil), 2⟩ := by
  decide

namespace Tree

theorem mem_orderedInsert {l : List (Nat × Nat)} {k v : Nat} :
    (∀ f ∈ orderedInsert l k v, f = (k, v) ∨ f ∈ l) ∧ (k, v) ∈ orderedInsert l k v := by
  match l with
  | [] => simp [orderedInsert]
  | e :: rest =>
    rw [orderedInsert]
    by_cases hk : k < e.1
    · rw [if_pos hk]
      constructor
      · intro f hf
        rcases List.mem_cons.mp hf with rfl | hf
        · exact Or.inl rfl
        · exact Or.inr hf
      · exact List.mem_cons_self _ _
    · rw [if_neg hk]
      obtain ⟨ih1, ih2⟩ := mem_orderedInsert (l := rest) (k := k) (v := v)
      constructor
      · intro f hf
        rcases List.mem_cons.mp hf with rfl | hf
        · exact Or.inr (List.mem_cons_self _ _)
        · rcases ih1 f hf with h | h
          · exact Or.inl h
          · exact Or.inr (List.mem_cons_of_mem _ h)
      · exact List.mem_cons_of_mem _ ih2

theorem sorted_orderedInsert {l : List (Nat × Nat)} {k v : Nat}
    (hs : EntriesSorted l) (hk : k ∉ l.map Prod.fst) :
    EntriesSorted (orderedInsert l k v) := by
  match l with
  | [] =>
    unfold orderedInsert EntriesSorted
    simp
  | e :: rest =>
    have hs2 : EntriesSorted rest := (List.pairwise_cons.mp hs).2
    have hlt : ∀ f ∈ rest, e.1 < f.1 := (List.pairwise_cons.mp hs).1
    have hke : k ≠ e.1 := fun h => hk (by simp [h])
    have hkr : k ∉ rest.map Prod.fst := fun h => hk (by simp at h ⊢; tauto)
    rw [orderedInsert]
    by_cases h1 : k < e.1
    · rw [if_pos h1]
      unfold EntriesSorted
      rw [List.pairwise_cons]
      constructor
      · intro f hf
        rcases List.mem_cons.mp hf with rfl | hf
        · exact h1
        · exact lt_trans h1 (hlt f hf)
      · exact hs
    · rw [if_neg h1]
      unfold EntriesSorted
      rw [List.pairwise_cons]
      constructor
      · intro f hf
        rcases (mem_orderedInsert.1 f hf) with rfl | hf2
        · show e.1 < k
          omega
        · exact hlt f hf2
      · exact sorted_orderedInsert hs2 hkr

theorem assignAtKey_facts {t : Tree} (hbst : BST t) {k : Nat} (hk : k ∈ keys t) (v : Nat) :
    keys (assignAtKey t k v) = keys t ∧
    (k, v) ∈ inorder (assignAtKey t k v) ∧
    (∀ e ∈ inorder (assignAtKey t k v), e.1 ≠ k → e ∈ inorder t) := by
  match t with
  | nil => simp [keys, inorder] at hk
  | node l nk nv r =>
    rw [assignAtKey]
    by_cases h1 : k < nk
    · have hkl : k ∈ keys l := by
        rw [keys_node] at hk
        rcases List.mem_append.mp hk with h | h
        · exact h
        · rcases List.mem_cons.mp h with rfl | h
          · exact absurd h1 (lt_irrefl _)
          · exact absurd (lt_of_mem_keys_right hbst h) (by omega)
      obtain ⟨ih1, ih2, ih3⟩ := assignAtKey_facts hbst.left hkl v
      rw [if_pos h1]
      refine ⟨by rw [keys_node, keys_node, ih1], ?_, ?_⟩
      · rw [inorder]
        exact List.mem_append.mpr (Or.inl ih2)
      · intro e he hek
        rw [inorder] at he ⊢
        rcases List.mem_append.mp he with he | he
        · exact List.mem_append.mpr (Or.inl (ih3 e he hek))
        · exact List.mem_append.mpr (Or.inr he)
    · by_cases h2 : nk < k
      · have hkr : k ∈ keys r := by
          rw [keys_node] at hk
          rcases List.mem_append.mp hk with h | h
          · exact absurd (lt_of_mem_keys_left hbst h) (by omega)
          · rcases List.mem_cons.mp h with rfl | h
            · exact absurd h2 (lt_irrefl _)
            · exact h
        obtain ⟨ih1, ih2, ih3⟩ := assignAtKey_facts hbst.right hkr v
        rw [if_neg h1, if_pos h2]
        refine ⟨by rw [keys_node, keys_node, ih1], ?_, ?_⟩
        · rw [inorder]
          exact List.mem_append.mpr (Or.inr (List.mem_cons.mpr (Or.inr ih2)))
        · intro e he hek
          rw [inorder] at he ⊢
          rcases List.mem_append.mp he with he | he
          · exact List.mem_append.mpr (Or.inl he)
          · rcases List.mem_cons.mp he with rfl | he
            · exact List.mem_append.mpr (Or.inr (List.mem_cons.mpr (Or.inl rfl)))
            · exact List.mem_append.mpr (Or.inr (List.mem_cons.mpr (Or.inr (ih3 e he hek))))
      · have hek : k = nk := by omega
        subst hek
        rw [if_neg h1, if_neg h2]
        refine ⟨by rw [keys_node, keys_node], ?_, ?_⟩
        · rw [inorder]
          exact List.mem_append.mpr (Or.inr (List.mem_cons.mpr (Or.inl rfl)))
        · intro e he hne
          rw [inorder] at he ⊢
          rcases List.mem_append.mp he with he | he
          · exact List.mem_append.mpr (Or.inl he)
          · rcases List.mem_cons.mp he with rfl | he
            · exact absurd rfl hne
            · exact List.mem_append.mpr (Or.inr (List.mem_cons.mpr (Or.inr he)))

theorem bst_of_keys_eq {t u : Tree} (h : keys u = keys t) (hbst : BST t) : BST u := by
  unfold BST EntriesSorted at hbst ⊢
  have ht : List.Pairwise (· < ·) (keys t) := by
    unfold keys
    rw [List.pairwise_map]
    exact hbst
  have hu : List.Pairwise (· < ·) (keys u) := h ▸ ht
  unfold keys at hu
  rw [List.pairwise_map] at hu
  exact hu

theorem inorder_eq_nil {t : Tree} (h : inorder t = []) : t = nil := by
  match t with
  | nil => rfl
  | node l k v r => exact absurd h inorder_ne_nil

end Tree

/-- C4 (intended semantics, modelled from the spec because the code's
`_insert_or_assign_hint` does not type-check when instantiated):
`insert_or_assign(k, v)` leaves the map in a state where `find(k)`
locates an entry whose mapped value equals `v`; when `k` was absent a
new entry is created (sorted insertion into the entry sequence) and
`(new iterator, true)` is returned; when `k` was present the value
(not the key) is overwritten, the key set, the other entries, and the
size are unchanged, and `(existing iterator, false)` is returned. -/
theorem C4_insert_or_assign_spec_model (s : MapState) (k v : Nat) (splayF splayI : Bool)
    (hInv : Inv s) :
    (findIter (insert_or_assign_spec s splayF splayI k v).st k).map Prod.snd = some v ∧
    (k ∉ Tree.keys s.tree →
      (insert_or_assign_spec s splayF splayI k v).inserted = true ∧
      (insert_or_assign_spec s splayF splayI k v).retKey = k ∧
      Tree.inorder (insert_or_assign_spec s splayF splayI k v).st.tree
        = Tree.orderedInsert (Tree.inorder s.tree) k v ∧
      (insert_or_assign_spec s splayF splayI k v).st.sz = s.sz + 1) ∧
    (k ∈ Tree.keys s.tree →
      (insert_or_assign_spec s splayF splayI k v).inserted = false ∧
      (insert_or_assign_spec s splayF splayI k v).retKey = k ∧
      Tree.keys (insert_or_assign_spec s splayF splayI k v).st.tree = Tree.keys s.tree ∧
      (insert_or_assign_spec s splayF splayI k v).st.sz = s.sz ∧
      (∀ e ∈ Tree.inorder (insert_or_assign_spec s splayF splayI k v).st.tree,
        e.1 ≠ k → e ∈ Tree.inorder s.tree)) := by
  obtain ⟨hbst, hsz⟩ := hInv
  by_cases hz : s.sz = 0
  · have htn : s.tree = Tree.nil := by
      apply Tree.inorder_eq_nil
      rw [← List.length_eq_zero, ← hsz]
      exact hz
    unfold insert_or_assign_spec
    rw [if_pos hz]
    refine ⟨by simp [findIter, Tree.findEntry], ?_, ?_⟩
    · intro _
      refine ⟨by trivial, by trivial, ?_, by trivial⟩
      rw [htn]
      simp [Tree.inorder, Tree.orderedInsert]
    · intro hmem
      rw [htn] at hmem
      simp [Tree.keys, Tree.inorder] at hmem
  · unfold insert_or_assign_spec
    rw [if_neg hz]
    rcases hfe : Tree.findEntry s.tree k with _ | e
    · have hknotin : k ∉ Tree.keys s.tree := (Tree.findEntry_eq_none hbst k).mp hfe
      have hio : Tree.inorder (Tree.insertAttach s.tree k v)
          = Tree.orderedInsert (Tree.inorder s.tree) k v :=
        Tree.inorder_insertAttach hbst hknotin v
      have hio2 : ∀ t2, Tree.inorder t2 = Tree.orderedInsert (Tree.inorder s.tree) k v →
          Tree.findEntry t2 k = some (k, v) := by
        intro t2 ht2
        apply Tree.findEntry_present
        · show Tree.EntriesSorted (Tree.inorder t2)
          rw [ht2]
          exact Tree.sorted_orderedInsert hbst hknotin
        · rw [ht2]
          exact Tree.mem_orderedInsert.2
      by_cases hsp : splayI
      · simp only [hsp, if_true]
        have hio3 : Tree.inorder (Tree.splayAtKey (Tree.insertAttach s.tree k v) k)
            = Tree.orderedInsert (Tree.inorder s.tree) k v := by
          rw [Tree.inorder_splayAtKey, hio]
        refine ⟨by simp [findIter, hio2 _ hio3], ?_, ?_⟩
        · intro _
          exact ⟨by trivial, by trivial, hio3, by trivial⟩
        · intro hmem
          exact absurd hmem hknotin
      · simp only [hsp, if_false]
        refine ⟨by simp [findIter, hio2 _ hio], ?_, ?_⟩
        · intro _
          exact ⟨by trivial, by trivial, hio, by trivial⟩
        · intro hmem
          exact absurd hmem hknotin
    · have hkm : k ∈ Tree.keys s.tree := by
        have := (Tree.findEntry_isSome_iff hbst k)
        rw [hfe] at this
        simpa using this
      obtain ⟨hmem, hek⟩ := Tree.findEntry_some hfe
      obtain ⟨ha1, ha2, ha3⟩ := Tree.assignAtKey_facts hbst hkm v
      have hproof : ∀ t2, Tree.inorder t2 = Tree.inorder (Tree.assignAtKey s.tree k v) →
          Tree.findEntry t2 k = some (k, v) ∧ Tree.keys t2 = Tree.keys s.tree ∧
          (∀ e2 ∈ Tree.inorder t2, e2.1 ≠ k → e2 ∈ Tree.inorder s.tree) := by
        intro t2 ht2
        have hkeq : Tree.keys t2 = Tree.keys s.tree := by
          rw [Tree.keys_def, ht2, ← Tree.keys_def, ha1]
        have hb2 : Tree.BST t2 := Tree.bst_of_keys_eq hkeq hbst
        refine ⟨Tree.findEntry_present hb2 (by rw [ht2]; exact ha2), hkeq, ?_⟩
        intro e2 he2 hne
        rw [ht2] at he2
        exact ha3 e2 he2 hne
      by_cases hsp : splayF
      · simp only [hsp, if_true]
        obtain ⟨hp1, hp2, hp3⟩ := hproof _ (Tree.inorder_splayAtKey _ k)
        refine ⟨by simp [findIter, hp1], ?_, ?_⟩
        · intro hnot
          exact absurd hkm hnot
        · intro _
          exact ⟨by trivial, hek, hp2, by trivial, hp3⟩
      · simp only [hsp, if_false]
        obtain ⟨hp1, hp2, hp3⟩ := hproof _ rfl
        refine ⟨by simp [findIter, hp1], ?_, ?_⟩
        · intro hnot
          exact absurd hkm hnot
        · intro _
          exact ⟨by trivial, hek, hp2, by trivial, hp3⟩

theorem C4_insert_or_assign_spec_model_witness :
    Inv ⟨Tree.node Tree.nil 1 10 Tree.nil, 1⟩ ∧
    ((findIter (insert_or_assign_spec ⟨Tree.node Tree.nil 1 10 Tree.nil, 1⟩ true true 1 77).st 1).map
        Prod.snd = some 77 ∧
     (1 ∉ Tree.keys (Tree.node Tree.nil 1 10 Tree.nil) →
       (insert_or_assign_spec ⟨Tree.node Tree.nil 1 10 Tree.nil, 1⟩ true true 1 77).inserted = true ∧
       (insert_or_assign_spec ⟨Tree.node Tree.nil 1 10 Tree.nil, 1⟩ true true 1 77).retKey = 1 ∧
       Tree.inorder (insert_or_assign_spec ⟨Tree.node Tree.nil 1 10 Tree.nil, 1⟩ true true 1 77).st.tree
         = Tree.orderedInsert (Tree.inorder (Tree.node Tree.nil 1 10 Tree.nil)) 1 77 ∧
       (insert_or_assign_spec ⟨Tree.node Tree.nil 1 10 Tree.nil, 1⟩ true true 1 77).st.sz = 2) ∧
     (1 ∈ Tree.keys (Tree.node Tree.nil 1 10 Tree.nil) →
       (insert_or_assign_spec ⟨Tree.node Tree.nil 1 10 Tree.nil, 1⟩ true true 1 77).inserted = false ∧
       (insert_or_assign_spec ⟨Tree.node Tree.nil 1 10 Tree.nil, 1⟩ true true 1 77).retKey = 1 ∧
       Tree.keys (insert_or_assign_spec ⟨Tree.node Tree.nil 1 10 Tree.nil, 1⟩ true true 1 77).st.tree
         = Tree.keys (Tree.node Tree.nil 1 10 Tree.nil) ∧
       (insert_or_assign_spec ⟨Tree.node Tree.nil 1 10 Tree.nil, 1⟩ true true 1 77).st.sz = 1 ∧
       (∀ e ∈ Tree.inorder
          (insert_or_assign_spec ⟨Tree.node Tree.nil 1 10 Tree.nil, 1⟩ true true 1 77).st.tree,
         e.1 ≠ 1 → e ∈ Tree.inorder (Tree.node Tree.nil 1 10 Tree.nil)))) :=
  ⟨by decide,
   C4_insert_or_assign_spec_model ⟨Tree.node Tree.nil 1 10 Tree.nil, 1⟩ 1 77 true true (by decide)⟩

theorem insertByVal_retKey (s : MapState) (splayF splayI : Bool) (k v : Nat)
    (hbst : Tree.BST s.tree) : (insertByVal s splayF splayI k v).retKey = k := by
  unfold insertByVal
  by_cases hz : s.sz = 0
  · rw [if_pos hz]
  · rw [if_neg hz]
    rcases hfe : Tree.findEntry s.tree k with _ | e
    · rfl
    · exact (Tree.findEntry_some hfe).2

/-- Unhinted insertion of a fresh key: the entry sequence becomes the
sorted insertion, size grows by one, and `(new node, true)` comes
back. -/
theorem insertByVal_fresh (s : MapState) (splayF splayI : Bool) (k v : Nat)
    (hbst : Tree.BST s.tree) (hz : ¬ s.sz = 0) (hk : k ∉ Tree.keys s.tree) :
    Tree.inorder (insertByVal s splayF splayI k v).st.tree
      = Tree.orderedInsert (Tree.inorder s.tree) k v ∧
    (insertByVal s splayF splayI k v).st.sz = s.sz + 1 ∧
    (insertByVal s splayF splayI k v).retKey = k ∧
    (insertByVal s splayF splayI k v).inserted = true := by
  unfold insertByVal
  rw [if_neg hz, (Tree.findEntry_eq_none hbst k).mpr hk]
  refine ⟨?_, by trivial, by trivial, by trivial⟩
  by_cases hsp : splayI
  · simp [hsp, Tree.inorder_splayAtKey, Tree.inorder_insertAttach hbst hk]
  · simp [hsp, Tree.inorder_insertAttach hbst hk]

namespace Tree

/-- Attaching at the right slot of the maximum node (the hint-at-end
path): sorted insertion, and the key is fresh. -/
theorem attach_after_max {t : Tree} (hbst : BST t) {mx : Nat × Nat}
    (hmx : rightmostEntry t = some mx) {k : Nat} (hmk : mx.1 < k) (v : Nat) :
    inorder (attachRightAt t mx.1 k v) = orderedInsert (inorder t) k v ∧
    k ∉ (inorder t).map Prod.fst := by
  rw [rightmostEntry_eq_getLast] at hmx
  have hall : ∀ e ∈ inorder t, e.1 < k := by
    intro e he
    exact lt_of_le_of_lt (sorted_getLast_max hbst hmx e he) hmk
  constructor
  · rw [attachRight_rightmost hbst hmx k v, orderedInsert_all_lt hall]
  · intro hm
    obtain ⟨f, hf, hfk⟩ := List.mem_map.mp hm
    have := hall f hf
    omega

/-- Attaching at the empty left slot of a valid hint node: sorted
insertion, and the key is fresh. -/
theorem attach_left_valid {t : Tree} (hbst : BST t) {j k : Nat} (hj : j ∈ keys t)
    (hnil : leftChildIsNil t j = true) (hkj : k < j)
    (hpred : ∀ p, predGo t j none = some p → p.1 < k) (v : Nat) :
    inorder (attachLeftAt t j k v) = orderedInsert (inorder t) k v ∧
    k ∉ (inorder t).map Prod.fst := by
  have hpred2 : ∀ p, prevInList (inorder t) j = some p → p.1 < k := by
    intro p hp
    apply hpred p
    rw [predGo_eq hbst hj none, hp]
  obtain ⟨h1, h2⟩ := insertBefore_eq_orderedInsert (v := v) hbst hj hkj hpred2
  exact ⟨by rw [inorder_attachLeftAt hbst hj hnil k v, h1], h2⟩

/-- Attaching at the right slot of the predecessor of a valid hint
node whose left slot is occupied: sorted insertion, and the key is
fresh. -/
theorem attach_right_valid {t : Tree} (hbst : BST t) {j k : Nat} (hj : j ∈ keys t)
    (hnil : leftChildIsNil t j = false) (hkj : k < j)
    (hpred : ∀ p, predGo t j none = some p → p.1 < k) (v : Nat) :
    ∃ q, predGo t j none = some q ∧
      inorder (attachRightAt t q.1 k v) = orderedInsert (inorder t) k v ∧
      k ∉ (inorder t).map Prod.fst := by
  have hpred2 : ∀ p, prevInList (inorder t) j = some p → p.1 < k := by
    intro p hp
    apply hpred p
    rw [predGo_eq hbst hj none, hp]
  obtain ⟨q, hq1, hq2, hq3, hq4⟩ := attachRight_pred hbst hj hnil none
  obtain ⟨h1, h2⟩ := insertBefore_eq_orderedInsert (v := v) hbst hj hkj hpred2
  exact ⟨q, hq1, by rw [hq4 k v, h1], h2⟩

/-- Under the invariants, when the hint node is not the minimum its
predecessor exists. -/
theorem predGo_isSome_of_ne_begin {t : Tree} (hbst : BST t) {j : Nat} (hj : j ∈ keys t)
    (hnb : ¬ some j = (leftmostEntry t).map Prod.fst) :
    ∃ p, predGo t j none = some p := by
  rcases hp : predGo t j none with _ | p
  · exfalso
    rw [predGo_eq hbst hj none] at hp
    rcases hpl : prevInList (inorder t) j with _ | q
    · have hhead := (prevInList_none_iff (keys_nodup hbst) hj).mp hpl
      apply hnb
      rw [leftmostEntry_eq_head]
      rcases hh : (inorder t).head? with _ | a
      · rw [hh] at hhead
        simp at hhead
      · rw [hh] at hhead
        simp at hhead
        simp [hh, hhead]
    · rw [hpl] at hp
      cases hp
  · exact ⟨p, rfl⟩

end Tree

namespace Tree

theorem nextInList_mem_tail {l : List (Nat × Nat)} {a : Nat × Nat} {j : Nat} {e : Nat × Nat}
    (h : nextInList (a :: l) j = some e) : e ∈ l := by
  rw [nextInList] at h
  by_cases ha : a.1 = j
  · rw [if_pos ha] at h
    exact mem_of_head_eq h
  · rw [if_neg ha] at h
    match l with
    | [] => simp [nextInList] at h
    | b :: rest => exact List.mem_cons.mpr (Or.inr (nextInList_mem_tail h))

theorem sorted_next_gt {l : List (Nat × Nat)} (hs : EntriesSorted l) {j : Nat} {e : Nat × Nat}
    (h : nextInList l j = some e) : j < e.1 := by
  match l with
  | [] => simp [nextInList] at h
  | a :: rest =>
    rw [nextInList] at h
    by_cases ha : a.1 = j
    · rw [if_pos ha] at h
      have hm := mem_of_head_eq h
      have := (List.pairwise_cons.mp hs).1 e hm
      omega
    · rw [if_neg ha] at h
      exact sorted_next_gt (List.pairwise_cons.mp hs).2 h

theorem sorted_next_prev {l : List (Nat × Nat)} (hs : EntriesSorted l) {j : Nat} {e : Nat × Nat}
    (h : nextInList l j = some e) : ∃ x, prevInList l e.1 = some x ∧ x.1 = j := by
  match l with
  | [] => simp [nextInList] at h
  | [a] =>
    rw [nextInList] at h
    by_cases ha : a.1 = j
    · rw [if_pos ha] at h
      simp at h
    · rw [if_neg ha] at h
      simp [nextInList] at h
  | a :: b :: rest =>
    rw [nextInList] at h
    by_cases ha : a.1 = j
    · rw [if_pos ha] at h
      have hb : b = e := by simpa using h
      subst hb
      refine ⟨a, ?_, ha⟩
      rw [prevInList, if_pos rfl]
    · rw [if_neg ha] at h
      have he : e ∈ rest := nextInList_mem_tail h
      have hbe : ¬ b.1 = e.1 := by
        have := (List.pairwise_cons.mp (List.pairwise_cons.mp hs).2).1 e he
        omega
      obtain ⟨x, hx1, hx2⟩ := sorted_next_prev (List.pairwise_cons.mp hs).2 h
      refine ⟨x, ?_, hx2⟩
      rw [prevInList, if_neg hbe]
      exact hx1

theorem nextInList_none_iff {l : List (Nat × Nat)} {j : Nat}
    (hnd : (l.map Prod.fst).Nodup) (hj : j ∈ l.map Prod.fst) :
    nextInList l j = none ↔ l.getLast?.map Prod.fst = some j := by
  match l with
  | [] => simp at hj
  | a :: rest =>
    have hmap : (a :: rest).map Prod.fst = a.1 :: rest.map Prod.fst := rfl
    rw [hmap] at hnd
    obtain ⟨hanotin, hnd2⟩ := List.nodup_cons.mp hnd
    rw [nextInList]
    by_cases ha : a.1 = j
    · rw [if_pos ha]
      cases rest with
      | nil => simp [ha]
      | cons b rest2 =>
        rw [List.getLast?_cons_cons]
        constructor
        · intro h
          simp at h
        · intro h
          exfalso
          rcases hg : (b :: rest2).getLast? with _ | x
          · rw [hg] at h
            simp at h
          · rw [hg] at h
            simp at h
            apply hanotin
            rw [ha, ← h]
            exact List.mem_map.mpr ⟨x, mem_of_getLast_eq hg, rfl⟩
    · rw [if_neg ha]
      have hj2 : j ∈ rest.map Prod.fst := by
        rw [hmap] at hj
        rcases List.mem_cons.mp hj with h | h
        · exact absurd h.symm ha
        · exact h
      cases rest with
      | nil => simp at hj2
      | cons b rest2 =>
        rw [List.getLast?_cons_cons]
        exact nextInList_none_iff hnd2 hj2

theorem leftmostEntry_of_ne_nil {t : Tree} (h : inorder t ≠ []) :
    ∃ mn, leftmostEntry t = some mn := by
  rw [leftmostEntry_eq_head]
  rcases hh : (inorder t).head? with _ | a
  · exact absurd (List.head?_eq_none_iff.mp hh) h
  · exact ⟨a, rfl⟩

theorem rightmostEntry_of_ne_nil {t : Tree} (h : inorder t ≠ []) :
    ∃ mx, rightmostEntry t = some mx := by
  rw [rightmostEntry_eq_getLast]
  rcases hh : (inorder t).getLast? with _ | a
  · exact absurd (List.getLast?_eq_none.mp hh) h
  · exact ⟨a, rfl⟩

theorem leftChildIsNil_leftmost {t : Tree} (hbst : BST t) {mn : Nat × Nat}
    (hmn : leftmostEntry t = some mn) : leftChildIsNil t mn.1 = true := by
  match t with
  | nil => simp [leftmostEntry] at hmn
  | node nil nk nv r =>
    have hmn2 : some (nk, nv) = some mn := hmn
    cases hmn2
    rw [leftChildIsNil]
    simp
  | node (node a b c d) nk nv r =>
    have hmn2 : leftmostEntry (node a b c d) = some mn := hmn
    have hmem : mn ∈ inorder (node a b c d) := by
      rw [leftmostEntry_eq_head] at hmn2
      exact mem_of_head_eq hmn2
    have hlt : mn.1 < nk := hbst.left_lt _ hmem
    rw [leftChildIsNil, if_pos hlt]
    exact leftChildIsNil_leftmost hbst.left hmn

theorem predGo_leftmost {t : Tree} (hbst : BST t) {mn : Nat × Nat}
    (hmn : leftmostEntry t = some mn) : predGo t mn.1 none = none := by
  have hh : (inorder t).head? = some mn := by
    rw [← leftmostEntry_eq_head]
    exact hmn
  have hmem : mn ∈ inorder t := mem_of_head_eq hh
  have hk : mn.1 ∈ keys t := mem_keys_iff.mpr ⟨mn.2, hmem⟩
  rw [predGo_eq hbst hk none]
  have hprev : prevInList (inorder t) mn.1 = none := by
    rw [prevInList_none_iff (keys_nodup hbst) hk, hh]
    rfl
  rw [hprev]

end Tree

theorem hintEval_end_valid (s : MapState) (sf si : Bool) (k v : Nat) (mn mx : Nat × Nat)
    (hz : ¬ s.sz = 0) (hmn : Tree.leftmostEntry s.tree = some mn)
    (hmx : Tree.rightmostEntry s.tree = some mx) (hc : mx.1 < k) :
    insertByValHint s sf si Hint.endIt k v
      = some ⟨⟨if si then Tree.splayAtKey (Tree.attachRightAt s.tree mx.1 k v) k
              else Tree.attachRightAt s.tree mx.1 k v, s.sz + 1⟩, k, true⟩ := by
  simp only [insertByValHint, if_neg hz, hmx, hmn]
  simp [hc]

theorem hintEval_end_invalid (s : MapState) (sf si : Bool) (k v : Nat) (mn mx : Nat × Nat)
    (hz : ¬ s.sz = 0) (hmn : Tree.leftmostEntry s.tree = some mn)
    (hmx : Tree.rightmostEntry s.tree = some mx) (hc : ¬ mx.1 < k) :
    insertByValHint s sf si Hint.endIt k v = some (insertByVal s sf si k v) := by
  simp only [insertByValHint, if_neg hz, hmx, hmn]
  simp [hc]

theorem hintEval_succ_none_valid (s : MapState) (sf si : Bool) (j k v : Nat) (mn mx : Nat × Nat)
    (hz : ¬ s.sz = 0) (hmn : Tree.leftmostEntry s.tree = some mn)
    (hmx : Tree.rightmostEntry s.tree = some mx) (hjk : j < k)
    (hsucc : Tree.succGo s.tree j none = none) (hc : mx.1 < k) :
    insertByValHint s sf si (Hint.pos j) k v
      = some ⟨⟨if si then Tree.splayAtKey (Tree.attachRightAt s.tree mx.1 k v) k
              else Tree.attachRightAt s.tree mx.1 k v, s.sz + 1⟩, k, true⟩ := by
  simp only [insertByValHint, if_neg hz, hmn, hmx, hsucc, if_pos hjk]
  simp [hc]

theorem hintEval_succ_valid_left (s : MapState) (sf si : Bool) (j k v : Nat) (mn e x : Nat × Nat)
    (hz : ¬ s.sz = 0) (hmn : Tree.leftmostEntry s.tree = some mn) (hjk : j < k)
    (hsucc : Tree.succGo s.tree j none = some e) (hnb : ¬ e.1 = mn.1)
    (hp : Tree.predGo s.tree e.1 none = some x) (hpk : x.1 < k) (hke : k < e.1)
    (hnil : Tree.leftChildIsNil s.tree e.1 = true) :
    insertByValHint s sf si (Hint.pos j) k v
      = some ⟨⟨if si then Tree.splayAtKey (Tree.attachLeftAt s.tree e.1 k v) k
              else Tree.attachLeftAt s.tree e.1 k v, s.sz + 1⟩, k, true⟩ := by
  simp only [insertByValHint, if_neg hz, hmn, hsucc, if_pos hjk]
  simp [hnb, hpk, hke, hnil, hp]

theorem hintEval_succ_valid_right (s : MapState) (sf si : Bool) (j k v : Nat) (mn e x : Nat × Nat)
    (hz : ¬ s.sz = 0) (hmn : Tree.leftmostEntry s.tree = some mn) (hjk : j < k)
    (hsucc : Tree.succGo s.tree j none = some e) (hnb : ¬ e.1 = mn.1)
    (hp : Tree.predGo s.tree e.1 none = some x) (hpk : x.1 < k) (hke : k < e.1)
    (hnil : ¬ Tree.leftChildIsNil s.tree e.1 = true) :
    insertByValHint s sf si (Hint.pos j) k v
      = some ⟨⟨if si then Tree.splayAtKey (Tree.attachRightAt s.tree x.1 k v) k
              else Tree.attachRightAt s.tree x.1 k v, s.sz + 1⟩, k, true⟩ := by
  simp only [insertByValHint, if_neg hz, hmn, hsucc, if_pos hjk]
  simp [hnb, hpk, hke, hnil, hp]

theorem hintEval_succ_fall_hi (s : MapState) (sf si : Bool) (j k v : Nat) (mn e x : Nat × Nat)
    (hz : ¬ s.sz = 0) (hmn : Tree.leftmostEntry s.tree = some mn) (hjk : j < k)
    (hsucc : Tree.succGo s.tree j none = some e) (hnb : ¬ e.1 = mn.1)
    (hp : Tree.predGo s.tree e.1 none = some x) (hpk : x.1 < k) (hke : ¬ k < e.1) :
    insertByValHint s sf si (Hint.pos j) k v = some (insertByVal s sf si k v) := by
  simp only [insertByValHint, if_neg hz, hmn, hsucc, if_pos hjk]
  simp [hnb, hpk, hke, hp]

theorem hintEval_pos_valid_left (s : MapState) (sf si : Bool) (j k v : Nat) (mn p : Nat × Nat)
    (hz : ¬ s.sz = 0) (hmn : Tree.leftmostEntry s.tree = some mn) (hjk : ¬ j < k)
    (hb : ¬ j = mn.1) (hp : Tree.predGo s.tree j none = some p) (hpk : p.1 < k)
    (hkj : k < j) (hnil : Tree.leftChildIsNil s.tree j = true) :
    insertByValHint s sf si (Hint.pos j) k v
      = some ⟨⟨if si then Tree.splayAtKey (Tree.attachLeftAt s.tree j k v) k
              else Tree.attachLeftAt s.tree j k v, s.sz + 1⟩, k, true⟩ := by
  simp only [insertByValHint, if_neg hz, hmn, hp, if_neg hjk]
  simp [hb, hpk, hkj, hnil]

theorem hintEval_pos_valid_right (s : MapState) (sf si : Bool) (j k v : Nat) (mn p : Nat × Nat)
    (hz : ¬ s.sz = 0) (hmn : Tree.leftmostEntry s.tree = some mn) (hjk : ¬ j < k)
    (hb : ¬ j = mn.1) (hp : Tree.predGo s.tree j none = some p) (hpk : p.1 < k)
    (hkj : k < j) (hnil : ¬ Tree.leftChildIsNil s.tree j = true) :
    insertByValHint s sf si (Hint.pos j) k v
      = some ⟨⟨if si then Tree.splayAtKey (Tree.attachRightAt s.tree p.1 k v) k
              else Tree.attachRightAt s.tree p.1 k v, s.sz + 1⟩, k, true⟩ := by
  simp only [insertByValHint, if_neg hz, hmn, hp, if_neg hjk]
  simp [hb, hpk, hkj, hnil]

theorem hintEval_pos_fall_lo (s : MapState) (sf si : Bool) (j k v : Nat) (mn p : Nat × Nat)
    (hz : ¬ s.sz = 0) (hmn : Tree.leftmostEntry s.tree = some mn) (hjk : ¬ j < k)
    (hb : ¬ j = mn.1) (hp : Tree.predGo s.tree j none = some p) (hpk : ¬ p.1 < k) :
    insertByValHint s sf si (Hint.pos j) k v = some (insertByVal s sf si k v) := by
  simp only [insertByValHint, if_neg hz, hmn, hp, if_neg hjk]
  simp [hb, hpk]

theorem hintEval_pos_fall_hi (s : MapState) (sf si : Bool) (j k v : Nat) (mn p : Nat × Nat)
    (hz : ¬ s.sz = 0) (hmn : Tree.leftmostEntry s.tree = some mn) (hjk : ¬ j < k)
    (hb : ¬ j = mn.1) (hp : Tree.predGo s.tree j none = some p) (hpk : p.1 < k)
    (hkj : ¬ k < j) :
    insertByValHint s sf si (Hint.pos j) k v = some (insertByVal s sf si k v) := by
  simp only [insertByValHint, if_neg hz, hmn, hp, if_neg hjk]
  simp [hb, hpk, hkj]

theorem hintEval_pos_fall_eq (s : MapState) (sf si : Bool) (k v : Nat) (mn : Nat × Nat)
    (hz : ¬ s.sz = 0) (hmn : Tree.leftmostEntry s.tree = some mn) (hjk : ¬ mn.1 < k)
    (hkj : ¬ k < mn.1) :
    insertByValHint s sf si (Hint.pos mn.1) k v = some (insertByVal s sf si k v) := by
  simp only [insertByValHint, if_neg hz, hmn, if_neg hjk]
  simp [hkj]

theorem hintEval_begin_valid (s : MapState) (sf si : Bool) (k v : Nat) (mn : Nat × Nat)
    (hz : ¬ s.sz = 0) (hmn : Tree.leftmostEntry s.tree = some mn) (hjk : ¬ mn.1 < k)
    (hkj : k < mn.1) (hnil : Tree.leftChildIsNil s.tree mn.1 = true) :
    insertByValHint s sf si (Hint.pos mn.1) k v
      = some ⟨⟨if si then Tree.splayAtKey (Tree.attachLeftAt s.tree mn.1 k v) k
              else Tree.attachLeftAt s.tree mn.1 k v, s.sz + 1⟩, k, true⟩ := by
  simp only [insertByValHint, if_neg hz, hmn, if_neg hjk]
  simp [hkj, hnil]

/-- C2 (amended): hinted insertion agrees with unhinted insertion for
every hint that is an iterator of this container — `end()` or any
data node of the map — and returns an iterator holding the inserted
key; moreover a valid hint (predecessor below the key, hint node
above it, under the sentinel boundary rules) attaches the new node in
O(1): as the left child of the hint node when that slot is the
sentinel, else as the right child of the predecessor (for an `end()`
hint, of the maximum; for a below-minimum key with the `begin()`
hint, as the left child of the minimum).  The original claim also
admitted a default-constructed iterator as hint; that part is false —
on a non-empty map the code calls `std::prev` on an iterator whose
container pointer is null and dereferences it, modelled as `none` —
and is refuted separately. -/
theorem C2_hinted_insert_equivalence :
    (∀ (s : MapState) (sf si : Bool) (h : Hint) (k v : Nat), Inv s →
      (h = Hint.endIt ∨ ∃ j, h = Hint.pos j ∧ j ∈ Tree.keys s.tree) →
      ∃ r, insertByValHint s sf si h k v = some r ∧
        Tree.inorder r.st.tree = Tree.inorder (insertByVal s sf si k v).st.tree ∧
        r.st.sz = (insertByVal s sf si k v).st.sz ∧
        r.retKey = (insertByVal s sf si k v).retKey ∧
        r.retKey = k ∧
        r.inserted = (insertByVal s sf si k v).inserted) ∧
    (∀ (s : MapState) (j k v : Nat) (p : Nat × Nat), Inv s → j ∈ Tree.keys s.tree →
      k < j → Tree.predGo s.tree j none = some p → p.1 < k →
      insertByValHint s false false (Hint.pos j) k v
        = some ⟨⟨if Tree.leftChildIsNil s.tree j then Tree.attachLeftAt s.tree j k v
                else Tree.attachRightAt s.tree p.1 k v, s.sz + 1⟩, k, true⟩) ∧
    (∀ (s : MapState) (k v : Nat) (mx : Nat × Nat), Inv s →
      Tree.rightmostEntry s.tree = some mx → mx.1 < k →
      insertByValHint s false false Hint.endIt k v
        = some ⟨⟨Tree.attachRightAt s.tree mx.1 k v, s.sz + 1⟩, k, true⟩) ∧
    (∀ (s : MapState) (k v : Nat) (mn : Nat × Nat), Inv s →
      Tree.leftmostEntry s.tree = some mn → k < mn.1 →
      insertByValHint s false false (Hint.pos mn.1) k v
        = some ⟨⟨Tree.attachLeftAt s.tree mn.1 k v, s.sz + 1⟩, k, true⟩) := by
  refine ⟨?_, ?_, ?_, ?_⟩
  · intro s sf si h k v hInv hok
    have hbst := hInv.1
    by_cases hz : s.sz = 0
    · refine ⟨insertByVal s sf si k v, ?_, rfl, rfl, rfl,
        insertByVal_retKey s sf si k v hbst, rfl⟩
      simp only [insertByValHint, if_pos hz]
    · have hne : Tree.inorder s.tree ≠ [] := by
        intro h0
        apply hz
        rw [hInv.2, h0]
        rfl
      obtain ⟨mn, hmn⟩ := Tree.leftmostEntry_of_ne_nil hne
      obtain ⟨mx, hmx⟩ := Tree.rightmostEntry_of_ne_nil hne
      rcases hok with rfl | ⟨j, rfl, hj⟩
      · by_cases hc : mx.1 < k
        · obtain ⟨hins, hfresh⟩ := Tree.attach_after_max hbst hmx hc v
          have hfr := insertByVal_fresh s sf si k v hbst hz
            (by rw [Tree.keys_def]; exact hfresh)
          refine ⟨_, hintEval_end_valid s sf si k v mn mx hz hmn hmx hc, ?_,
            hfr.2.1.symm, hfr.2.2.1.symm, rfl, hfr.2.2.2.symm⟩
          show Tree.inorder (if si = true
              then Tree.splayAtKey (Tree.attachRightAt s.tree mx.1 k v) k
              else Tree.attachRightAt s.tree mx.1 k v)
            = Tree.inorder (insertByVal s sf si k v).st.tree
          by_cases hsi : si
          · rw [if_pos hsi, Tree.inorder_splayAtKey, hins, hfr.1]
          · rw [if_neg hsi, hins, hfr.1]
        · exact ⟨insertByVal s sf si k v,
            hintEval_end_invalid s sf si k v mn mx hz hmn hmx hc, rfl, rfl, rfl,
            insertByVal_retKey s sf si k v hbst, rfl⟩
      · by_cases hjk : j < k
        · rcases hsucc : Tree.succGo s.tree j none with _ | e
          · have hnext : Tree.nextInList (Tree.inorder s.tree) j = none := by
              have hs := Tree.succGo_eq hbst hj none
              rw [hsucc] at hs
              rcases hn : Tree.nextInList (Tree.inorder s.tree) j with _ | e2
              · rfl
              · rw [hn] at hs
                cases hs
            have hmxg : (Tree.inorder s.tree).getLast? = some mx := by
              rw [← Tree.rightmostEntry_eq_getLast]
              exact hmx
            have hmxj : mx.1 = j := by
              have hl := (Tree.nextInList_none_iff (Tree.keys_nodup hbst) hj).mp hnext
              rw [hmxg] at hl
              simpa using hl
            have hc : mx.1 < k := by omega
            obtain ⟨hins, hfresh⟩ := Tree.attach_after_max hbst hmx hc v
            have hfr := insertByVal_fresh s sf si k v hbst hz
              (by rw [Tree.keys_def]; exact hfresh)
            refine ⟨_, hintEval_succ_none_valid s sf si j k v mn mx hz hmn hmx hjk hsucc hc,
              ?_, hfr.2.1.symm, hfr.2.2.1.symm, rfl, hfr.2.2.2.symm⟩
            show Tree.inorder (if si = true
                then Tree.splayAtKey (Tree.attachRightAt s.tree mx.1 k v) k
                else Tree.attachRightAt s.tree mx.1 k v)
              = Tree.inorder (insertByVal s sf si k v).st.tree
            by_cases hsi : si
            · rw [if_pos hsi, Tree.inorder_splayAtKey, hins, hfr.1]
            · rw [if_neg hsi, hins, hfr.1]
          · have hnext : Tree.nextInList (Tree.inorder s.tree) j = some e := by
              have hs := Tree.succGo_eq hbst hj none
              rw [hsucc] at hs
              rcases hn : Tree.nextInList (Tree.inorder s.tree) j with _ | e2 <;>
                rw [hn] at hs
              · cases hs
              · exact hs.symm
            have he1mem : e ∈ Tree.inorder s.tree := Tree.nextInList_mem hnext
            have hje : e.1 ∈ Tree.keys s.tree := Tree.mem_keys_iff.mpr ⟨e.2, he1mem⟩
            have hjlt : j < e.1 := Tree.sorted_next_gt hbst hnext
            have hnb : ¬ e.1 = mn.1 := by
              have hh : (Tree.inorder s.tree).head? = some mn := by
                rw [← Tree.leftmostEntry_eq_head]
                exact hmn
              obtain ⟨vj, hvj⟩ := Tree.mem_keys_iff.mp hj
              have hmin := Tree.sorted_head_min hbst hh (j, vj) hvj
              omega
            obtain ⟨x, hx1, hx2⟩ := Tree.sorted_next_prev hbst hnext
            have hp : Tree.predGo s.tree e.1 none = some x := by
              rw [Tree.predGo_eq hbst hje none, hx1]
            have hpk : x.1 < k := by omega
            have hpredAll : ∀ q, Tree.predGo s.tree e.1 none = some q → q.1 < k := by
              intro q hq
              rw [hp] at hq
              cases hq
              omega
            by_cases hke : k < e.1
            · by_cases hnil : Tree.leftChildIsNil s.tree e.1 = true
              · obtain ⟨hins, hfresh⟩ := Tree.attach_left_valid hbst hje hnil hke hpredAll v
                have hfr := insertByVal_fresh s sf si k v hbst hz
                  (by rw [Tree.keys_def]; exact hfresh)
                refine ⟨_, hintEval_succ_valid_left s sf si j k v mn e x hz hmn hjk hsucc
                  hnb hp hpk hke hnil, ?_, hfr.2.1.symm, hfr.2.2.1.symm, rfl, hfr.2.2.2.symm⟩
                show Tree.inorder (if si = true
                    then Tree.splayAtKey (Tree.attachLeftAt s.tree e.1 k v) k
                    else Tree.attachLeftAt s.tree e.1 k v)
                  = Tree.inorder (insertByVal s sf si k v).st.tree
                by_cases hsi : si
                · rw [if_pos hsi, Tree.inorder_splayAtKey, hins, hfr.1]
                · rw [if_neg hsi, hins, hfr.1]
              · have hnil2 : Tree.leftChildIsNil s.tree e.1 = false := by
                  rcases hbb : Tree.leftChildIsNil s.tree e.1
                  · rfl
                  · exact absurd hbb hnil
                obtain ⟨q, hq1, hq2, hq3⟩ := Tree.attach_right_valid hbst hje hnil2 hke hpredAll v
                rw [hp] at hq1
                cases hq1
                have hfr := insertByVal_fresh s sf si k v hbst hz
                  (by rw [Tree.keys_def]; exact hq3)
                refine ⟨_, hintEval_succ_valid_right s sf si j k v mn e x hz hmn hjk hsucc
                  hnb hp hpk hke hnil, ?_, hfr.2.1.symm, hfr.2.2.1.symm, rfl, hfr.2.2.2.symm⟩
                show Tree.inorder (if si = true
                    then Tree.splayAtKey (Tree.attachRightAt s.tree x.1 k v) k
                    else Tree.attachRightAt s.tree x.1 k v)
                  = Tree.inorder (insertByVal s sf si k v).st.tree
                by_cases hsi : si
                · rw [if_pos hsi, Tree.inorder_splayAtKey, hq2, hfr.1]
                · rw [if_neg hsi, hq2, hfr.1]
            · exact ⟨insertByVal s sf si k v, hintEval_succ_fall_hi s sf si j k v mn e x
                hz hmn hjk hsucc hnb hp hpk hke, rfl, rfl, rfl,
                insertByVal_retKey s sf si k v hbst, rfl⟩
        · by_cases hb : j = mn.1
          · subst hb
            by_cases hkj : k < mn.1
            · have hnil := Tree.leftChildIsNil_leftmost hbst hmn
              have hpredAll : ∀ q, Tree.predGo s.tree mn.1 none = some q → q.1 < k := by
                intro q hq
                rw [Tree.predGo_leftmost hbst hmn] at hq
                cases hq
              obtain ⟨hins, hfresh⟩ := Tree.attach_left_valid hbst hj hnil hkj hpredAll v
              have hfr := insertByVal_fresh s sf si k v hbst hz
                (by rw [Tree.keys_def]; exact hfresh)
              refine ⟨_, hintEval_begin_valid s sf si k v mn hz hmn hjk hkj hnil, ?_,
                hfr.2.1.symm, hfr.2.2.1.symm, rfl, hfr.2.2.2.symm⟩
              show Tree.inorder (if si = true
                  then Tree.splayAtKey (Tree.attachLeftAt s.tree mn.1 k v) k
                  else Tree.attachLeftAt s.tree mn.1 k v)
                = Tree.inorder (insertByVal s sf si k v).st.tree
              by_cases hsi : si
              · rw [if_pos hsi, Tree.inorder_splayAtKey, hins, hfr.1]
              · rw [if_neg hsi, hins, hfr.1]
            · exact ⟨insertByVal s sf si k v,
                hintEval_pos_fall_eq s sf si k v mn hz hmn hjk hkj, rfl, rfl, rfl,
                insertByVal_retKey s sf si k v hbst, rfl⟩
          · have hnb2 : ¬ some j = (Tree.leftmostEntry s.tree).map Prod.fst := by
              rw [hmn]
              simp [hb]
            obtain ⟨p, hp⟩ := Tree.predGo_isSome_of_ne_begin hbst hj hnb2
            by_cases hpk : p.1 < k
            · by_cases hkj : k < j
              · have hpredAll : ∀ q, Tree.predGo s.tree j none = some q → q.1 < k := by
                  intro q hq
                  rw [hp] at hq
                  cases hq
                  exact hpk
                by_cases hnil : Tree.leftChildIsNil s.tree j = true
                · obtain ⟨hins, hfresh⟩ := Tree.attach_left_valid hbst hj hnil hkj hpredAll v
                  have hfr := insertByVal_fresh s sf si k v hbst hz
                    (by rw [Tree.keys_def]; exact hfresh)
                  refine ⟨_, hintEval_pos_valid_left s sf si j k v mn p hz hmn hjk hb
                    hp hpk hkj hnil, ?_, hfr.2.1.symm, hfr.2.2.1.symm, rfl, hfr.2.2.2.symm⟩
                  show Tree.inorder (if si = true
                      then Tree.splayAtKey (Tree.attachLeftAt s.tree j k v) k
                      else Tree.attachLeftAt s.tree j k v)
                    = Tree.inorder (insertByVal s sf si k v).st.tree
                  by_cases hsi : si
                  · rw [if_pos hsi, Tree.inorder_splayAtKey, hins, hfr.1]
                  · rw [if_neg hsi, hins, hfr.1]
                · have hnil2 : Tree.leftChildIsNil s.tree j = false := by
                    rcases hbb : Tree.leftChildIsNil s.tree j
                    · rfl
                    · exact absurd hbb hnil
                  obtain ⟨q, hq1, hq2, hq3⟩ := Tree.attach_right_valid hbst hj hnil2 hkj hpredAll v
                  rw [hp] at hq1
                  cases hq1
                  have hfr := insertByVal_fresh s sf si k v hbst hz
                    (by rw [Tree.keys_def]; exact hq3)
                  refine ⟨_, hintEval_pos_valid_right s sf si j k v mn p hz hmn hjk hb
                    hp hpk hkj hnil, ?_, hfr.2.1.symm, hfr.2.2.1.symm, rfl, hfr.2.2.2.symm⟩
                  show Tree.inorder (if si = true
                      then Tree.splayAtKey (Tree.attachRightAt s.tree p.1 k v) k
                      else Tree.attachRightAt s.tree p.1 k v)
                    = Tree.inorder (insertByVal s sf si k v).st.tree
                  by_cases hsi : si
                  · rw [if_pos hsi, Tree.inorder_splayAtKey, hq2, hfr.1]
                  · rw [if_neg hsi, hq2, hfr.1]
              · exact ⟨insertByVal s sf si k v, hintEval_pos_fall_hi s sf si j k v mn p
                  hz hmn hjk hb hp hpk hkj, rfl, rfl, rfl,
                  insertByVal_retKey s sf si k v hbst, rfl⟩
            · exact ⟨insertByVal s sf si k v, hintEval_pos_fall_lo s sf si j k v mn p
                hz hmn hjk hb hp hpk, rfl, rfl, rfl,
                insertByVal_retKey s sf si k v hbst, rfl⟩
  · intro s j k v p hInv hj hkj hp hpk
    have hbst := hInv.1
    have hne : Tree.inorder s.tree ≠ [] := by
      intro h0
      rw [Tree.keys_def, h0] at hj
      simp at hj
    have hz : ¬ s.sz = 0 := by
      intro h0
      apply hne
      have h1 := hInv.2
      rw [h0] at h1
      exact List.length_eq_zero.mp h1.symm
    obtain ⟨mn, hmn⟩ := Tree.leftmostEntry_of_ne_nil hne
    have hjk : ¬ j < k := by omega
    have hb : ¬ j = mn.1 := by
      intro hb0
      rw [hb0, Tree.predGo_leftmost hbst hmn] at hp
      cases hp
    by_cases hnil : Tree.leftChildIsNil s.tree j = true
    · rw [hintEval_pos_valid_left s false false j k v mn p hz hmn hjk hb hp hpk hkj hnil]
      simp [hnil]
    · have hnil2 : Tree.leftChildIsNil s.tree j = false := by
        rcases hbb : Tree.leftChildIsNil s.tree j
        · rfl
        · exact absurd hbb hnil
      rw [hintEval_pos_valid_right s false false j k v mn p hz hmn hjk hb hp hpk hkj hnil]
      simp [hnil2]
  · intro s k v mx hInv hmx hc
    have hne : Tree.inorder s.tree ≠ [] := by
      intro h0
      have h1 : (Tree.inorder s.tree).getLast? = some mx := by
        rw [← Tree.rightmostEntry_eq_getLast]
        exact hmx
      rw [h0] at h1
      cases h1
    have hz : ¬ s.sz = 0 := by
      intro h0
      apply hne
      have h1 := hInv.2
      rw [h0] at h1
      exact List.length_eq_zero.mp h1.symm
    obtain ⟨mn, hmn⟩ := Tree.leftmostEntry_of_ne_nil hne
    rw [hintEval_end_valid s false false k v mn mx hz hmn hmx hc]
    simp
  · intro s k v mn hInv hmn hkj
    have hbst := hInv.1
    have hne : Tree.inorder s.tree ≠ [] := by
      intro h0
      have h1 : (Tree.inorder s.tree).head? = some mn := by
        rw [← Tree.leftmostEntry_eq_head]
        exact hmn
      rw [h0] at h1
      cases h1
    have hz : ¬ s.sz = 0 := by
      intro h0
      apply hne
      have h1 := hInv.2
      rw [h0] at h1
      exact List.length_eq_zero.mp h1.symm
    have hnil := Tree.leftChildIsNil_leftmost hbst hmn
    rw [hintEval_begin_valid s false false k v mn hz hmn (by omega) hkj hnil]
    simp

/-- C2 witness: on the map {1↦10, 3↦30} (tree `3(1,·)`), the valid
hint `pos 3` with key 2 attaches the new node in O(1) as the right
child of the predecessor 1, since the hint node's left slot is
occupied. -/
theorem C2_hinted_insert_equivalence_witness :
    Inv ⟨Tree.node (Tree.node Tree.nil 1 10 Tree.nil) 3 30 Tree.nil, 2⟩ ∧
    (3 : Nat) ∈ Tree.keys (Tree.node (Tree.node Tree.nil 1 10 Tree.nil) 3 30 Tree.nil) ∧
    (2 : Nat) < 3 ∧
    Tree.predGo (Tree.node (Tree.node Tree.nil 1 10 Tree.nil) 3 30 Tree.nil) 3 none
      = some (1, 10) ∧
    (1 : Nat) < 2 ∧
    insertByValHint ⟨Tree.node (Tree.node Tree.nil 1 10 Tree.nil) 3 30 Tree.nil, 2⟩
        false false (Hint.pos 3) 2 99
      = some ⟨⟨if Tree.leftChildIsNil (Tree.node (Tree.node Tree.nil 1 10 Tree.nil) 3 30 Tree.nil) 3
              then Tree.attachLeftAt (Tree.node (Tree.node Tree.nil 1 10 Tree.nil) 3 30 Tree.nil) 3 2 99
              else Tree.attachRightAt (Tree.node (Tree.node Tree.nil 1 10 Tree.nil) 3 30 Tree.nil) 1 2 99,
              3⟩, 2, true⟩ :=
  ⟨by decide, by decide, by decide, by decide, by decide,
    C2_hinted_insert_equivalence.2.1
      ⟨Tree.node (Tree.node Tree.nil 1 10 Tree.nil) 3 30 Tree.nil, 2⟩
      3 2 99 (1, 10) (by decide) (by decide) (by decide) (by decide) (by decide)⟩

end Bushy
